import Mathlib

set_option maxRecDepth 4000

/-!
Shallow embedding of the Daily_Backup repository
(src/web-portal-automator-src/main.py and weekly_backup.py), together with
theorems settling the frozen claims about its specification.

Names are modelled as `List Char` (Python `str`); fallible Python code is
modelled with `Option`/`Except` (a raised exception is `none` / `.error`);
remote Drive state is passed explicitly.
-/

namespace DailyBackup

abbrev Str := List Char

/-- ASCII model of Python `str.lower` applied to one character. -/
def lowChar (c : Char) : Char := c.toLower

/-- Characters removed by Python `str.strip()` (ASCII whitespace). -/
def isPySpace (c : Char) : Bool :=
  c = ' ' || c = '\t' || c = '\n' || c = '\r' || c = '\x0b' || c = '\x0c'

/-- Python `str.strip()`: drop leading and trailing whitespace. -/
def pyStrip (s : Str) : Str :=
  ((s.dropWhile isPySpace).reverse.dropWhile isPySpace).reverse

/-- Python `str.lower()` on a whole name (ASCII model). -/
def pyLower (s : Str) : Str := s.map lowChar

/-!
Model of `canon_rx = re.compile(r"^(?:(?:Copy of |Copia de )+)?(.+?)(?: \(\d+\))?(\.[^.]+)?$", re.I)`
and `canonical` from weekly_backup.py.  The Python backtracking engine is
embedded directly for this one pattern, preserving its preference order:
the optional duplicate-marker group is greedy (most repetitions first,
alternative `Copy of ` before `Copia de `, case-insensitive), the stem
`(.+?)` is lazy and cannot cross a newline, the `" (digits)"` group and the
extension group are greedy optionals, and `$` accepts the end of the string
or a position just before a single trailing newline.
-/

/-- Case-insensitive literal match: drop `pat` (given lower-case) from the
front of `s`, comparing lower-cased characters. -/
def dropCI : Str → Str → Option Str
  | [], rest => some rest
  | _ :: _, [] => none
  | p :: ps, c :: cs => if lowChar c = p then dropCI ps cs else none

/-- One duplicate marker: `Copy of ` (preferred) or `Copia de `, case-insensitive. -/
def dropMarker (s : Str) : Option Str :=
  match dropCI ("copy of ".data) s with
  | some r => some r
  | none => dropCI ("copia de ".data) s

theorem dropCI_length : ∀ p s r, dropCI p s = some r → s.length = p.length + r.length := by
  intro p
  induction p with
  | nil => intro s r h; cases s <;> simp [dropCI] at h <;> simp [h]
  | cons x xs ih =>
    intro s r h
    cases s with
    | nil => simp [dropCI] at h
    | cons c cs =>
      simp only [dropCI] at h
      split at h
      · have := ih cs r h
        simp [List.length_cons, this]
        omega
      · exact absurd h (by simp)

theorem dropMarker_length (s r : Str) (h : dropMarker s = some r) : r.length < s.length := by
  have l1 : ("copy of ".data).length = 8 := rfl
  have l2 : ("copia de ".data).length = 9 := rfl
  unfold dropMarker at h
  rcases h' : dropCI ("copy of ".data) s with _ | r'
  · rw [h'] at h
    simp only at h
    have := dropCI_length _ _ _ h
    rw [l2] at this
    omega
  · rw [h'] at h
    simp only at h
    cases h
    have := dropCI_length _ _ _ h'
    rw [l1] at this
    omega

/-- Rest strings after stripping one or more duplicate markers, in the
backtracking engine's preference order (most repetitions first).  The fuel
only bounds the recursion depth; each marker strips at least eight
characters, so `s.length` is always enough. -/
def markerRestsF : Nat → Str → List Str
  | 0, _ => []
  | fuel + 1, s =>
    match dropMarker s with
    | some r => markerRestsF fuel r ++ [r]
    | none => []

/-- Rest strings after one or more markers, most repetitions first. -/
def markerRests (s : Str) : List Str := markerRestsF s.length s

theorem markerRestsF_fuel : ∀ (f1 f2 : Nat) (s : Str), s.length ≤ f1 → s.length ≤ f2 →
    markerRestsF f1 s = markerRestsF f2 s := by
  intro f1
  induction f1 with
  | zero =>
    intro f2 s h1 _
    have hs : s = [] := List.eq_nil_of_length_eq_zero (Nat.le_zero.mp h1)
    subst hs
    cases f2 with
    | zero => rfl
    | succ f2 => simp [markerRestsF, dropMarker, dropCI]
  | succ f1 ih =>
    intro f2 s h1 h2
    cases f2 with
    | zero =>
      have hs : s = [] := List.eq_nil_of_length_eq_zero (Nat.le_zero.mp h2)
      subst hs
      simp [markerRestsF, dropMarker, dropCI]
    | succ f2 =>
      simp only [markerRestsF]
      rcases h : dropMarker s with _ | r
      · rfl
      · have hr := dropMarker_length s r h
        simp only [ih f2 r (by omega) (by omega)]

/-- The `$` anchor: end of string, or just before a single trailing newline. -/
def atEnd (s : Str) : Bool :=
  match s with
  | [] => true
  | ['\n'] => true
  | _ => false

/-- The optional ` (digits)` group: consume it if it is present here
(greedy digits followed by a closing parenthesis). -/
def dropNumSuffix (s : Str) : Option Str :=
  match s with
  | ' ' :: '(' :: tl =>
    match tl.span Char.isDigit with
    | (ds, ')' :: r) => if ds.isEmpty then none else some r
    | _ => none
  | _ => none

/-- The optional extension group `(\.[^.]+)?` followed by `$`, at the current
position: returns `some ext?` on a match of the remainder of the pattern.
The greedy `[^.]+` (which may contain a newline) must reach the end of the
string, so the group matches only a dot followed by a non-empty dot-free tail. -/
def extEnd (s : Str) : Option (Option Str) :=
  match s with
  | '.' :: tl =>
    if !tl.isEmpty && tl.all (fun c => c ≠ '.') then some (some ('.' :: tl))
    else if atEnd s then some none else none
  | _ => if atEnd s then some none else none

/-- The pattern tail after the stem: optional ` (digits)` group (preferred),
then the extension group and `$`. -/
def tailMatch (s : Str) : Option (Option Str) :=
  match dropNumSuffix s with
  | some r =>
    match extEnd r with
    | some e => some e
    | none => extEnd s
  | none => extEnd s

/-- The lazy stem `(.+?)` followed by the pattern tail: `acc` holds the stem
characters consumed so far; the shortest extension of the stem whose tail
matches wins, and the stem cannot contain a newline. -/
def findStem (acc : Str) : Str → Option (Str × Option Str)
  | [] => none
  | c :: tl =>
    if c = '\n' then none
    else
      match tailMatch tl with
      | some e => some (acc ++ [c], e)
      | none => findStem (acc ++ [c]) tl

/-- First successful start position, in preference order. -/
def tryAll : List Str → Option (Str × Option Str)
  | [] => none
  | r :: rs =>
    match findStem [] r with
    | some g => some g
    | none => tryAll rs

/-- Groups `(stem, ext?)` of `canon_rx.match(name)`, or `none` when the
regex does not match (Python then raises on `.groups()`). -/
def canonGroups (s : Str) : Option (Str × Option Str) :=
  tryAll (markerRests s ++ [s])

/-- weekly_backup.canonical: `f"{stem.strip().lower()}{ext or ''}"`, or
`none` when `canon_rx.match(name)` is `None` and the call raises. -/
def canonical (s : Str) : Option Str :=
  match canonGroups s with
  | some (stem, e) => some (pyLower (pyStrip stem) ++ e.getD [])
  | none => none

/-!
Model of `clone_folder` from weekly_backup.py.  The source subtree is an
inductive tree (Drive folder contents, pagination pages concatenated in
listing order); `ok i` tells whether the `files().copy` call for source
file `i` succeeds or raises an `HttpError` (which the code catches, logs
and skips).  A file whose name the regex does not match makes `canonical`
raise, which nothing in `clone_folder` catches: the run dies, modelled as
`.error ()`.  The result records, per destination folder, the copy
attempts `(source id, canonical key, copy succeeded)` in order, the
suppressed duplicates, and the nested sub-folder results.
-/

mutual

/-- A source Drive item as `clone_folder` sees it: a non-folder child
(`file`, covering regular files and shortcuts alike, since only
`mimeType == FOLDER_MIME` is treated specially) or a sub-folder. -/
inductive DItem : Type where
  | file : Nat → Str → DItem
  | folder : Nat → Str → DForest → DItem

/-- A listing of Drive children (mutual with `DItem` so that all the
functions below are structurally recursive). -/
inductive DForest : Type where
  | nil : DForest
  | cons : DItem → DForest → DForest

end

/-- Result of cloning one source folder into its fresh destination folder:
source folder id, its name, the copy attempts `(source id, key, copy
succeeded)` in listing order, the suppressed duplicates, and the results of
the sub-folder clones. -/
inductive FolderRes : Type where
  | mk : Nat → Str → List (Nat × Str × Bool) → List (Nat × Str) → List FolderRes → FolderRes

def FolderRes.fid : FolderRes → Nat
  | .mk i _ _ _ _ => i

def FolderRes.fname : FolderRes → Str
  | .mk _ n _ _ _ => n

def FolderRes.acts : FolderRes → List (Nat × Str × Bool)
  | .mk _ _ a _ _ => a

def FolderRes.dups : FolderRes → List (Nat × Str)
  | .mk _ _ _ d _ => d

def FolderRes.subs : FolderRes → List FolderRes
  | .mk _ _ _ _ s => s

/-- Copy attempts, suppressed duplicates and sub-results of one folder body. -/
structure CloneOut : Type where
  acts : List (Nat × Str × Bool)
  dups : List (Nat × Str)
  subs : List FolderRes

/-- The body of `clone_folder`: iterate the children with the folder's own
fresh `dup_guard`; a sub-folder recurses with a fresh guard; a non-folder
child is keyed by `canonical`, suppressed if the key was already seen,
otherwise added to the guard and copy-attempted (an `HttpError` from the
copy is caught and skipped). -/
def cloneKids (ok : Nat → Bool) (guard : List Str) : DForest → Except Unit CloneOut
  | .nil => .ok ⟨[], [], []⟩
  | .cons (.folder i n cc) rest => do
    let inner ← cloneKids ok [] cc
    let outer ← cloneKids ok guard rest
    .ok ⟨outer.acts, outer.dups, .mk i n inner.acts inner.dups inner.subs :: outer.subs⟩
  | .cons (.file i n) rest =>
    match canonical n with
    | none => .error ()
    | some k =>
      if k ∈ guard then do
        let out ← cloneKids ok guard rest
        .ok ⟨out.acts, (i, k) :: out.dups, out.subs⟩
      else do
        let out ← cloneKids ok (k :: guard) rest
        .ok ⟨(i, k, ok i) :: out.acts, out.dups, out.subs⟩

/-- `clone_folder` on a source folder with id `fid`, name `nm` and
children `cs` (the destination folder having just been created). -/
def cloneFolderM (ok : Nat → Bool) (fid : Nat) (nm : Str) (cs : DForest) :
    Except Unit FolderRes :=
  match cloneKids ok [] cs with
  | .ok o => .ok (.mk fid nm o.acts o.dups o.subs)
  | .error e => .error e

/-- Every file name in the forest is matched by the regex, so `canonical`
never raises while cloning. -/
def namesOkF : DForest → Bool
  | .nil => true
  | .cons (.file _ n) r => (canonical n).isSome && namesOkF r
  | .cons (.folder _ _ cc) r => namesOkF cc && namesOkF r

/-- Non-folder children with their canonical keys, in listing order
(the key defaults to `[]`, unused under `namesOkF`). -/
def keysOf : DForest → List (Nat × Str)
  | .nil => []
  | .cons (.file i n) r => (i, (canonical n).getD []) :: keysOf r
  | .cons (.folder _ _ _) r => keysOf r

/-- The folder children, in listing order. -/
def folderKids : DForest → List DItem
  | .nil => []
  | .cons (.file _ _) r => folderKids r
  | .cons (.folder i n cc) r => .folder i n cc :: folderKids r

/-- First occurrence of each canonical key not already in `seen`. -/
def firstsFrom (seen : List Str) : List (Nat × Str) → List (Nat × Str)
  | [] => []
  | (i, k) :: r => if k ∈ seen then firstsFrom seen r else (i, k) :: firstsFrom (k :: seen) r

/-- Later occurrences: the complement of `firstsFrom`. -/
def latersFrom (seen : List Str) : List (Nat × Str) → List (Nat × Str)
  | [] => []
  | (i, k) :: r => if k ∈ seen then (i, k) :: latersFrom seen r else latersFrom (k :: seen) r

theorem firstsFrom_keys_nodup (l : List (Nat × Str)) : ∀ seen : List Str,
    ((firstsFrom seen l).map Prod.snd).Nodup ∧
      ∀ k ∈ (firstsFrom seen l).map Prod.snd, k ∉ seen := by
  induction l with
  | nil => intro seen; simp [firstsFrom]
  | cons p r ih =>
    intro seen
    obtain ⟨i, k⟩ := p
    by_cases hk : k ∈ seen
    · simpa [firstsFrom, hk] using ih seen
    · have h2 := ih (k :: seen)
      simp only [firstsFrom, if_neg hk, List.map_cons, List.nodup_cons, List.mem_cons]
      refine ⟨⟨fun hmem => (h2.2 k hmem) (by simp), h2.1⟩, ?_⟩
      rintro x (rfl | hx)
      · exact hk
      · have := h2.2 x hx
        simp only [List.mem_cons, not_or] at this
        exact this.2

theorem cloneKids_spec (ok : Nat → Bool) : ∀ (guard : List Str) (cs : DForest),
    namesOkF cs = true →
    ∃ o : CloneOut, cloneKids ok guard cs = .ok o ∧
      o.acts = (firstsFrom guard (keysOf cs)).map (fun p => (p.1, p.2, ok p.1)) ∧
      o.dups = latersFrom guard (keysOf cs) ∧
      List.Forall₂ (fun it sub => ∃ i n cc o2, it = DItem.folder i n cc ∧
        cloneKids ok [] cc = Except.ok o2 ∧ sub = FolderRes.mk i n o2.acts o2.dups o2.subs)
        (folderKids cs) o.subs := by
  intro guard cs
  induction guard, cs using cloneKids.induct ok with
  | case1 guard =>
    intro _
    exact ⟨⟨[], [], []⟩, by simp [cloneKids, keysOf, firstsFrom, latersFrom, folderKids]⟩
  | case2 guard i n cc rest ih1 ih2 =>
    intro h
    simp only [namesOkF, Bool.and_eq_true] at h
    obtain ⟨o2, ho2, ha2, hd2, hf2⟩ := ih1 h.1
    obtain ⟨o3, ho3, ha3, hd3, hf3⟩ := ih2 h.2
    refine ⟨⟨o3.acts, o3.dups, .mk i n o2.acts o2.dups o2.subs :: o3.subs⟩, ?_, ?_, ?_, ?_⟩
    · simp only [cloneKids, ho2, ho3, Except.bind, bind]
    · simpa [keysOf] using ha3
    · simpa [keysOf] using hd3
    · simp only [folderKids]
      exact List.Forall₂.cons ⟨i, n, cc, o2, rfl, ho2, rfl⟩ hf3
  | case3 guard i n rest hnone =>
    intro h
    simp [namesOkF, hnone] at h
  | case4 guard i n rest k hk hmem ih =>
    intro h
    simp only [namesOkF, Bool.and_eq_true] at h
    obtain ⟨o2, ho2, ha2, hd2, hf2⟩ := ih h.2
    refine ⟨⟨o2.acts, (i, k) :: o2.dups, o2.subs⟩, ?_, ?_, ?_, ?_⟩
    · simp only [cloneKids, hk, ho2, Except.bind, bind]
      simp [hmem]
    · simpa [keysOf, hk, firstsFrom, hmem] using ha2
    · simp [keysOf, hk, latersFrom, hmem, hd2]
    · simpa [folderKids] using hf2
  | case5 guard i n rest k hk hmem ih =>
    intro h
    simp only [namesOkF, Bool.and_eq_true] at h
    obtain ⟨o2, ho2, ha2, hd2, hf2⟩ := ih h.2
    refine ⟨⟨(i, k, ok i) :: o2.acts, o2.dups, o2.subs⟩, ?_, ?_, ?_, ?_⟩
    · simp only [cloneKids, hk, ho2, Except.bind, bind]
      simp [hmem]
    · simp [keysOf, hk, firstsFrom, hmem, ha2]
    · simp [keysOf, hk, latersFrom, hmem, hd2]
    · simpa [folderKids] using hf2

/-- Concrete source tree used by the C1 witness: the root folder and the
sub-folder each contain a file whose canonical key is `report.xlsx`, so the
fresh-per-folder guard lets both folders receive a copy. -/
def exTreeC1 : DForest :=
  .cons (.file 1 ("Report.xlsx".data))
    (.cons (.file 2 ("Copy of Report (1).xlsx".data))
      (.cons (.folder 10 ("Sub".data)
        (.cons (.file 3 ("Copia de Report.xlsx".data)) .nil)) .nil))

/-- C1: in each destination folder populated by `clone_folder`, the copy is
attempted exactly for the first non-folder child bearing each canonical key
(`firstsFrom [] …`, whose key list is duplicate-free, so at most one copy per
key per folder) and performed when the Drive copy call succeeds; every later
child with an already-seen key is suppressed into the folder's `dups`
(`latersFrom [] …`, the `dup` counter); and each sub-folder is cloned by a
recursive call whose guard is the fresh empty set (`cloneKids ok []`), so a
key seen in one folder never suppresses a copy in a different folder. -/
theorem C1_dedup_guard_per_folder (ok : Nat → Bool) (fid : Nat) (nm : Str) (cs : DForest)
    (h : namesOkF cs = true) :
    ∃ R : FolderRes, cloneFolderM ok fid nm cs = .ok R ∧
      R.acts = (firstsFrom [] (keysOf cs)).map (fun p => (p.1, p.2, ok p.1)) ∧
      (R.acts.map (fun x => x.2.1)).Nodup ∧
      R.dups = latersFrom [] (keysOf cs) ∧
      List.Forall₂ (fun it sub => ∃ i n cc o2, it = DItem.folder i n cc ∧
        cloneKids ok [] cc = Except.ok o2 ∧ sub = FolderRes.mk i n o2.acts o2.dups o2.subs)
        (folderKids cs) R.subs := by
  obtain ⟨o, ho, ha, hd, hf⟩ := cloneKids_spec ok [] cs h
  refine ⟨.mk fid nm o.acts o.dups o.subs, by simp [cloneFolderM, ho], ?_, ?_, ?_, ?_⟩
  · simpa [FolderRes.acts] using ha
  · have hn := (firstsFrom_keys_nodup (keysOf cs) []).1
    simp only [FolderRes.acts, ha, List.map_map]
    simpa [Function.comp] using hn
  · simpa [FolderRes.dups] using hd
  · simpa [FolderRes.subs] using hf

/-- Witness for C1 at a concrete tree in which the key `report.xlsx` occurs
twice in the root folder and once more in a sub-folder. -/
theorem C1_dedup_guard_per_folder_witness :
    ∃ R : FolderRes, cloneFolderM (fun _ => true) 0 ("Root".data) exTreeC1 = .ok R ∧
      R.acts = (firstsFrom [] (keysOf exTreeC1)).map (fun p => (p.1, p.2, true)) ∧
      (R.acts.map (fun x => x.2.1)).Nodup ∧
      R.dups = latersFrom [] (keysOf exTreeC1) ∧
      List.Forall₂ (fun it sub => ∃ i n cc o2, it = DItem.folder i n cc ∧
        cloneKids (fun _ => true) [] cc = Except.ok o2 ∧
        sub = FolderRes.mk i n o2.acts o2.dups o2.subs)
        (folderKids exTreeC1) R.subs :=
  C1_dedup_guard_per_folder (fun _ => true) 0 ("Root".data) exTreeC1 (by decide)

/-!
Model of `gather_spreadsheets_and_excels` from main.py: a breadth-first walk
over an arbitrary finite item graph (folder id → listed children, pages
concatenated), with a visited-source-folder set, a `found` dict keyed by
file id (insertion-ordered, updates in place, as a Python dict), and
shortcut children contributing their target when the target mime is in
`TARGET_MIMES`.  The walk also records the order in which folders are
actually listed.
-/

/-- The mime kinds the walk distinguishes: `folderM` (FOLDER_MIME), the
five members of `TARGET_MIMES`, `shortcutM`, and anything else. -/
inductive Mime : Type where
  | folderM : Mime
  | sheet : Mime
  | xlsx : Mime
  | xls : Mime
  | xlsm : Mime
  | xlsb : Mime
  | shortcutM : Mime
  | other : Mime
deriving DecidableEq

/-- Membership in `TARGET_MIMES` (Google Sheet or the four Excel mimes). -/
def targetMime : Mime → Bool
  | .sheet => true
  | .xlsx => true
  | .xls => true
  | .xlsm => true
  | .xlsb => true
  | _ => false

/-- One child row of a Drive listing: id, name, mimeType, and the
`shortcutDetails` target fields (meaningful when `mime = shortcutM`). -/
structure RawItem : Type where
  id : Nat
  name : Str
  mime : Mime
  tgtId : Nat
  tgtMime : Mime
deriving DecidableEq

/-- An element of the `found` dict. -/
structure Entry : Type where
  id : Nat
  name : Str
  mime : Mime
deriving DecidableEq

/-- The item graph: folder id → children listing.  Cycles are allowed. -/
abbrev Graph := List (Nat × List RawItem)

/-- Children returned by `drive.files().list` for a folder id. -/
def listChildren (g : Graph) (fid : Nat) : List RawItem :=
  match g.find? (fun e => e.1 == fid) with
  | some e => e.2
  | none => []

/-- Python-dict assignment `found[key] = v`: replace in place, else append. -/
def upsert (found : List (Nat × Entry)) (key : Nat) (v : Entry) : List (Nat × Entry) :=
  match found with
  | [] => [(key, v)]
  | (k0, v0) :: r => if k0 = key then (key, v) :: r else (k0, v0) :: upsert r key v

/-- The body of the per-child loop: folders are enqueued; `TARGET_MIMES`
files go into `found` under their own id; shortcuts whose target mime is in
`TARGET_MIMES` go into `found` under the *target* id with the link name
annotated `" (shortcut)"`; everything else is ignored. -/
def stepChild (acc : List (Nat × Entry) × List Nat) (f : RawItem) :
    List (Nat × Entry) × List Nat :=
  if f.mime = .folderM then (acc.1, acc.2 ++ [f.id])
  else if targetMime f.mime then (upsert acc.1 f.id ⟨f.id, f.name, f.mime⟩, acc.2)
  else if f.mime = .shortcutM then
    if targetMime f.tgtMime then
      (upsert acc.1 f.tgtId ⟨f.tgtId, f.name ++ (" (shortcut)".data), f.tgtMime⟩, acc.2)
    else acc
  else acc

theorem unvisited_lt (g : Graph) (fid : Nat) (visited : List Nat)
    (hg : fid ∈ g.map (fun e => e.1)) (hv : fid ∉ visited) :
    ((g.map (fun e => e.1)).toFinset \ (fid :: visited).toFinset).card <
      ((g.map (fun e => e.1)).toFinset \ visited.toFinset).card := by
  apply Finset.card_lt_card
  rw [Finset.ssubset_iff_of_subset]
  · exact ⟨fid, by simp [hg, hv], by simp⟩
  · apply Finset.sdiff_subset_sdiff (le_refl _)
    simp only [List.toFinset_cons]
    exact Finset.subset_insert _ _

theorem unvisited_eq (g : Graph) (fid : Nat) (visited : List Nat)
    (hg : fid ∉ g.map (fun e => e.1)) :
    ((g.map (fun e => e.1)).toFinset \ (fid :: visited).toFinset) =
      ((g.map (fun e => e.1)).toFinset \ visited.toFinset) := by
  ext x
  simp only [Finset.mem_sdiff, List.mem_toFinset, List.mem_cons]
  constructor
  · rintro ⟨h1, h2⟩
    exact ⟨h1, fun hx => h2 (Or.inr hx)⟩
  · rintro ⟨h1, h2⟩
    refine ⟨h1, ?_⟩
    rintro (rfl | hx)
    · exact hg h1
    · exact h2 hx

theorem listChildren_eq_nil (g : Graph) (fid : Nat) (h : fid ∉ g.map (fun e => e.1)) :
    listChildren g fid = [] := by
  unfold listChildren
  have hn : g.find? (fun e => e.1 == fid) = none := by
    rw [List.find?_eq_none]
    intro e he hbe
    exact h (List.mem_map.mpr ⟨e, he, by simpa using hbe⟩)
  rw [hn]


/-- The BFS loop of `gather_spreadsheets_and_excels`: pop a folder id, skip
it if already visited, otherwise list it (recording it in `listed`), process
its children, and append the discovered sub-folders to the queue.  Total on
every finite graph, cycles included: the pair (unvisited graph folders,
queue length) decreases lexicographically. -/
def gatherLoop (g : Graph) (visited : List Nat) (queue : List Nat)
    (found : List (Nat × Entry)) (listed : List Nat) :
    (List (Nat × Entry)) × List Nat :=
  match queue with
  | [] => (found, listed)
  | fid :: qs =>
    if fid ∈ visited then gatherLoop g visited qs found listed
    else
      let out := (listChildren g fid).foldl stepChild (found, [])
      gatherLoop g (fid :: visited) (qs ++ out.2) out.1 (listed ++ [fid])
termination_by ((((g.map (fun e => e.1)).toFinset \ visited.toFinset).card), queue.length)
decreasing_by
· exact Prod.Lex.right _ (by simp)
· by_cases hg : fid ∈ g.map (fun e => e.1)
  · exact Prod.Lex.left _ _ (unvisited_lt g fid visited hg (by assumption))
  · rw [unvisited_eq g fid visited hg]
    refine Prod.Lex.right _ ?_
    rw [listChildren_eq_nil g fid hg]
    simp [List.foldl]

/-- `gather_spreadsheets_and_excels(drive, root)` together with the listing
log: the `found` dict and the folders listed, in order. -/
def gatherModel (g : Graph) (root : Nat) : (List (Nat × Entry)) × List Nat :=
  gatherLoop g [] [root] [] []

/-- The returned `list(found.values())`. -/
def gatherResult (g : Graph) (root : Nat) : List Entry :=
  (gatherModel g root).1.map (fun e => e.2)

/-- The folders listed during the walk, in order. -/
def gatherListed (g : Graph) (root : Nat) : List Nat :=
  (gatherModel g root).2

/-- Ids of children that carry the folder mime anywhere in the graph: the
only ids the walk ever enqueues besides the root. -/
def folderChildIds (g : Graph) : List Nat :=
  ((g.map (fun e => e.2)).flatten.filter (fun f => f.mime = .folderM)).map (fun f => f.id)

/-- All children rows appearing anywhere in the graph. -/
def allChildren (g : Graph) : List RawItem :=
  (g.map (fun e => e.2)).flatten

/-- Provenance of a `found` entry: it was written either by the
plain-file branch (key = the file id, entry fields copied from the row) or
by the shortcut branch (key = the target id, the link name annotated with
`" (shortcut)"` and the target mime, which passes the filter). -/
def EntryProv (g : Graph) (e : Nat × Entry) : Prop :=
  ∃ f ∈ allChildren g,
    (targetMime f.mime = true ∧ e.1 = f.id ∧ e.2 = ⟨f.id, f.name, f.mime⟩) ∨
    (f.mime = .shortcutM ∧ targetMime f.tgtMime = true ∧ e.1 = f.tgtId ∧
      e.2 = ⟨f.tgtId, f.name ++ (" (shortcut)".data), f.tgtMime⟩)

theorem upsert_keys (k : Nat) (v : Entry) : ∀ found : List (Nat × Entry),
    (upsert found k v).map (fun e => e.1) =
      if k ∈ found.map (fun e => e.1) then found.map (fun e => e.1)
      else found.map (fun e => e.1) ++ [k] := by
  intro found
  induction found with
  | nil => simp [upsert]
  | cons p r ih =>
    obtain ⟨k0, v0⟩ := p
    by_cases hk : k0 = k
    · subst hk
      simp [upsert]
    · simp only [upsert, if_neg hk, List.map_cons, ih]
      by_cases hm : k ∈ r.map (fun e => e.1)
      · simp [hm, Ne.symm hk]
      · simp [hm, Ne.symm hk]

theorem upsert_keys_nodup (k : Nat) (v : Entry) (found : List (Nat × Entry))
    (h : (found.map (fun e => e.1)).Nodup) :
    ((upsert found k v).map (fun e => e.1)).Nodup := by
  rw [upsert_keys]
  by_cases hm : k ∈ found.map (fun e => e.1)
  · simpa [hm] using h
  · simp only [hm, if_false]
    simpa [List.nodup_append, hm] using h

theorem upsert_mem (k : Nat) (v : Entry) : ∀ (found : List (Nat × Entry)) (e : Nat × Entry),
    e ∈ upsert found k v → e ∈ found ∨ e = (k, v) := by
  intro found
  induction found with
  | nil =>
    intro e he
    simp only [upsert, List.mem_singleton] at he
    exact Or.inr he
  | cons p r ih =>
    obtain ⟨k0, v0⟩ := p
    intro e he
    by_cases hk : k0 = k
    · rw [show upsert ((k0, v0) :: r) k v = (k, v) :: r from by simp [upsert, hk]] at he
      rcases List.mem_cons.mp he with heq | hm
      · exact Or.inr heq
      · exact Or.inl (List.mem_cons_of_mem _ hm)
    · rw [show upsert ((k0, v0) :: r) k v = (k0, v0) :: upsert r k v from by
        simp [upsert, hk]] at he
      rcases List.mem_cons.mp he with heq | hm
      · exact Or.inl (heq ▸ List.mem_cons_self _ _)
      · rcases ih e hm with h | h
        · exact Or.inl (List.mem_cons_of_mem _ h)
        · exact Or.inr h

theorem stepChild_folder (acc : List (Nat × Entry) × List Nat) (f : RawItem)
    (h : f.mime = .folderM) : stepChild acc f = (acc.1, acc.2 ++ [f.id]) := by
  simp [stepChild, h]

theorem stepChild_target (acc : List (Nat × Entry) × List Nat) (f : RawItem)
    (h2 : targetMime f.mime = true) :
    stepChild acc f = (upsert acc.1 f.id ⟨f.id, f.name, f.mime⟩, acc.2) := by
  have h1 : f.mime ≠ .folderM := by
    intro h
    rw [h] at h2
    exact absurd h2 (by simp [targetMime])
  simp [stepChild, h1, h2]

theorem stepChild_shortcut (acc : List (Nat × Entry) × List Nat) (f : RawItem)
    (h3 : f.mime = .shortcutM) (h4 : targetMime f.tgtMime = true) :
    stepChild acc f =
      (upsert acc.1 f.tgtId ⟨f.tgtId, f.name ++ (" (shortcut)".data), f.tgtMime⟩, acc.2) := by
  have ht : targetMime Mime.shortcutM = false := rfl
  simp [stepChild, h3, ht, h4]

theorem stepChild_skip (acc : List (Nat × Entry) × List Nat) (f : RawItem)
    (h1 : f.mime ≠ .folderM) (h2 : targetMime f.mime = false)
    (h34 : f.mime = .shortcutM → targetMime f.tgtMime = false) :
    stepChild acc f = acc := by
  by_cases h3 : f.mime = .shortcutM
  · have ht : targetMime Mime.shortcutM = false := rfl
    simp [stepChild, h1, h3, ht, h34 h3]
  · simp [stepChild, h1, h2, h3]

/-- What one pass of the child loop appends to the queue: exactly the ids
of the folder-mime children, in order. -/
theorem foldl_stepChild_snd (cs : List RawItem) : ∀ acc : List (Nat × Entry) × List Nat,
    (cs.foldl stepChild acc).2 =
      acc.2 ++ (cs.filter (fun f => f.mime = .folderM)).map (fun f => f.id) := by
  induction cs with
  | nil => intro acc; simp
  | cons f cs ih =>
    intro acc
    simp only [List.foldl_cons, ih, List.filter_cons]
    by_cases h1 : f.mime = .folderM
    · rw [stepChild_folder acc f h1]
      simp [h1]
    · by_cases h2 : targetMime f.mime
      · rw [stepChild_target acc f h2]
        simp [h1]
      · by_cases h3 : f.mime = .shortcutM
        · by_cases h4 : targetMime f.tgtMime
          · rw [stepChild_shortcut acc f h3 h4]
            simp [h1]
          · rw [stepChild_skip acc f h1 (by simpa using h2) (fun _ => by simpa using h4)]
            simp [h1]
        · rw [stepChild_skip acc f h1 (by simpa using h2) (fun hc => absurd hc h3)]
          simp [h1]

/-- One pass of the child loop preserves the `found` invariants: keys stay
duplicate-free, each entry's id equals its key, and every entry not already
present has provenance among the processed children. -/
theorem foldl_stepChild_fst (g : Graph) (cs : List RawItem) (hcs : ∀ f ∈ cs, f ∈ allChildren g) :
    ∀ acc : List (Nat × Entry) × List Nat,
    ((acc.1.map (fun e => e.1)).Nodup → (((cs.foldl stepChild acc).1).map (fun e => e.1)).Nodup) ∧
    ((∀ e ∈ acc.1, e.2.id = e.1) → ∀ e ∈ (cs.foldl stepChild acc).1, e.2.id = e.1) ∧
    ((∀ e ∈ acc.1, EntryProv g e) → ∀ e ∈ (cs.foldl stepChild acc).1, EntryProv g e) := by
  induction cs with
  | nil => intro acc; exact ⟨fun h => h, fun h => h, fun h => h⟩
  | cons f cs ih =>
    intro acc
    have hf : f ∈ allChildren g := hcs f (List.mem_cons_self _ _)
    have hcs' : ∀ x ∈ cs, x ∈ allChildren g := fun x hx => hcs x (List.mem_cons_of_mem _ hx)
    have ihrest := ih hcs' (stepChild acc f)
    simp only [List.foldl_cons]
    have step :
        ((acc.1.map (fun e => e.1)).Nodup → (((stepChild acc f).1).map (fun e => e.1)).Nodup) ∧
        ((∀ e ∈ acc.1, e.2.id = e.1) → ∀ e ∈ (stepChild acc f).1, e.2.id = e.1) ∧
        ((∀ e ∈ acc.1, EntryProv g e) → ∀ e ∈ (stepChild acc f).1, EntryProv g e) := by
      by_cases h1 : f.mime = .folderM
      · rw [stepChild_folder acc f h1]
        exact ⟨fun h => h, fun h => h, fun h => h⟩
      · by_cases h2 : targetMime f.mime
        · rw [stepChild_target acc f h2]
          refine ⟨fun h => upsert_keys_nodup _ _ _ h, fun h => ?_, fun h => ?_⟩
          · intro e he
            rcases upsert_mem _ _ _ _ he with hm | heq
            · exact h e hm
            · rw [heq]
          · intro e he
            rcases upsert_mem _ _ _ _ he with hm | heq
            · exact h e hm
            · rw [heq]
              exact ⟨f, hf, Or.inl ⟨h2, rfl, rfl⟩⟩
        · by_cases h3 : f.mime = .shortcutM
          · by_cases h4 : targetMime f.tgtMime
            · rw [stepChild_shortcut acc f h3 h4]
              refine ⟨fun h => upsert_keys_nodup _ _ _ h, fun h => ?_, fun h => ?_⟩
              · intro e he
                rcases upsert_mem _ _ _ _ he with hm | heq
                · exact h e hm
                · rw [heq]
              · intro e he
                rcases upsert_mem _ _ _ _ he with hm | heq
                · exact h e hm
                · rw [heq]
                  exact ⟨f, hf, Or.inr ⟨h3, h4, rfl, rfl⟩⟩
            · rw [stepChild_skip acc f h1 (by simpa using h2) (fun _ => by simpa using h4)]
              exact ⟨fun h => h, fun h => h, fun h => h⟩
          · rw [stepChild_skip acc f h1 (by simpa using h2) (fun hc => absurd hc h3)]
            exact ⟨fun h => h, fun h => h, fun h => h⟩
    exact ⟨fun h => ihrest.1 (step.1 h), fun h => ihrest.2.1 (step.2.1 h),
      fun h => ihrest.2.2 (step.2.2 h)⟩

theorem listChildren_sub (g : Graph) (fid : Nat) : ∀ f ∈ listChildren g fid, f ∈ allChildren g := by
  intro f hf
  unfold listChildren at hf
  rcases hfind : g.find? (fun e => e.1 == fid) with _ | e
  · rw [hfind] at hf
    cases hf
  · rw [hfind] at hf
    have he : e ∈ g := List.mem_of_find?_eq_some hfind
    unfold allChildren
    exact List.mem_flatten.mpr ⟨e.2, List.mem_map.mpr ⟨e, he, rfl⟩, hf⟩

theorem folderKidsOfListing_sub (g : Graph) (fid : Nat) :
    ∀ x ∈ ((listChildren g fid).filter (fun f => f.mime = .folderM)).map (fun f => f.id),
      x ∈ folderChildIds g := by
  intro x hx
  obtain ⟨f, hf, rfl⟩ := List.mem_map.mp hx
  have hf2 := List.mem_filter.mp hf
  unfold folderChildIds
  exact List.mem_map.mpr ⟨f, List.mem_filter.mpr ⟨listChildren_sub g fid f hf2.1, hf2.2⟩, rfl⟩

theorem gatherLoop_nil (g : Graph) (visited : List Nat) (found : List (Nat × Entry))
    (listed : List Nat) : gatherLoop g visited [] found listed = (found, listed) := by
  rw [gatherLoop]

theorem gatherLoop_vis (g : Graph) (visited : List Nat) (fid : Nat) (qs : List Nat)
    (found : List (Nat × Entry)) (listed : List Nat) (h : fid ∈ visited) :
    gatherLoop g visited (fid :: qs) found listed = gatherLoop g visited qs found listed := by
  rw [gatherLoop]
  simp [h]

theorem gatherLoop_new (g : Graph) (visited : List Nat) (fid : Nat) (qs : List Nat)
    (found : List (Nat × Entry)) (listed : List Nat) (h : fid ∉ visited) :
    gatherLoop g visited (fid :: qs) found listed =
      gatherLoop g (fid :: visited)
        (qs ++ ((listChildren g fid).foldl stepChild (found, [])).2)
        ((listChildren g fid).foldl stepChild (found, [])).1 (listed ++ [fid]) := by
  rw [gatherLoop]
  simp [h]

/-- The walk invariants, carried through the BFS loop: the listing log stays
duplicate-free (each folder is listed at most once, thanks to the visited
set), every listed folder was either already listed, queued, or is the id of
some folder-mime child of the graph, and the `found` dict keeps
duplicate-free keys, id-equals-key entries, and only entries with a
plain-file or annotated-shortcut provenance. -/
theorem gatherLoop_spec (g : Graph) : ∀ (visited queue : List Nat) (found : List (Nat × Entry))
    (listed : List Nat),
    listed.Nodup → (∀ x ∈ listed, x ∈ visited) →
    (found.map (fun e => e.1)).Nodup → (∀ e ∈ found, e.2.id = e.1) →
    (∀ e ∈ found, EntryProv g e) →
    ((gatherLoop g visited queue found listed).2.Nodup ∧
     (∀ x ∈ (gatherLoop g visited queue found listed).2,
        x ∈ listed ∨ x ∈ queue ∨ x ∈ folderChildIds g) ∧
     ((gatherLoop g visited queue found listed).1.map (fun e => e.1)).Nodup ∧
     (∀ e ∈ (gatherLoop g visited queue found listed).1, e.2.id = e.1) ∧
     (∀ e ∈ (gatherLoop g visited queue found listed).1, EntryProv g e)) := by
  intro visited queue found listed
  induction visited, queue, found, listed using gatherLoop.induct g with
  | case1 visited found listed =>
    intro h1 h2 h3 h4 h5
    rw [gatherLoop_nil]
    exact ⟨h1, fun x hx => Or.inl hx, h3, h4, h5⟩
  | case2 visited found listed fid qs hmem ih =>
    intro h1 h2 h3 h4 h5
    rw [gatherLoop_vis g visited fid qs found listed hmem]
    obtain ⟨c1, c2, c3, c4, c5⟩ := ih h1 h2 h3 h4 h5
    refine ⟨c1, fun x hx => ?_, c3, c4, c5⟩
    rcases c2 x hx with h | h | h
    · exact Or.inl h
    · exact Or.inr (Or.inl (List.mem_cons_of_mem _ h))
    · exact Or.inr (Or.inr h)
  | case3 visited found listed fid qs hmem out ih =>
    intro h1 h2 h3 h4 h5
    rw [gatherLoop_new g visited fid qs found listed hmem]
    have hfold := foldl_stepChild_fst g (listChildren g fid) (listChildren_sub g fid)
      (found, [])
    have hq := foldl_stepChild_snd (listChildren g fid) (found, [])
    have h1' : (listed ++ [fid]).Nodup := by
      have hnl : fid ∉ listed := fun hf => hmem (h2 fid hf)
      simp [List.nodup_append, h1, hnl]
    have h2' : ∀ x ∈ listed ++ [fid], x ∈ fid :: visited := by
      intro x hx
      rcases List.mem_append.mp hx with h | h
      · exact List.mem_cons_of_mem _ (h2 x h)
      · simp only [List.mem_singleton] at h
        exact h ▸ List.mem_cons_self _ _
    obtain ⟨c1, c2, c3, c4, c5⟩ := ih h1' h2' (hfold.1 h3) (hfold.2.1 h4) (hfold.2.2 h5)
    refine ⟨c1, fun x hx => ?_, c3, c4, c5⟩
    rcases c2 x hx with h | h | h
    · rcases List.mem_append.mp h with h | h
      · exact Or.inl h
      · simp only [List.mem_singleton] at h
        exact Or.inr (Or.inl (h ▸ List.mem_cons_self _ _))
    · rcases List.mem_append.mp h with h | h
      · exact Or.inr (Or.inl (List.mem_cons_of_mem _ h))
      · rw [hq] at h
        simp only [List.nil_append] at h
        exact Or.inr (Or.inr (folderKidsOfListing_sub g fid x h))
    · exact Or.inr (Or.inr h)

/-- Two folders that list each other: an item graph with a cycle. -/
def cycGraphC7 : Graph :=
  [(0, [⟨10, "A".data, .folderM, 0, .other⟩]), (10, [⟨0, "B".data, .folderM, 0, .other⟩])]

/-- C7: the source-tree walk of `gather_spreadsheets_and_excels` is total on
every finite item graph — `gatherLoop` is defined by well-founded recursion
on (unvisited folders, queue length), cycles included — and the
visited-source-folder set makes every folder listed at most once
(`gatherListed` is duplicate-free); concretely, on a two-folder cycle the
walk lists each folder exactly once and stops. -/
theorem C7_walk_terminates_each_folder_listed_once :
    (∀ (g : Graph) (root : Nat), (gatherListed g root).Nodup) ∧
    gatherListed cycGraphC7 0 = [0, 10] := by
  constructor
  · intro g root
    have h := gatherLoop_spec g [] [root] [] [] (by simp) (by simp) (by simp) (by simp)
      (by simp)
    exact h.1
  · have e1 : gatherLoop cycGraphC7 [] [0] [] [] = gatherLoop cycGraphC7 [0] [10] [] [0] := by
      rw [gatherLoop_new cycGraphC7 [] 0 [] [] [] (by simp)]
      rfl
    have e2 : gatherLoop cycGraphC7 [0] [10] [] [0] =
        gatherLoop cycGraphC7 [10, 0] [0] [] [0, 10] := by
      rw [gatherLoop_new cycGraphC7 [0] 10 [] [] [0] (by simp)]
      rfl
    have e3 : gatherLoop cycGraphC7 [10, 0] [0] [] [0, 10] =
        gatherLoop cycGraphC7 [10, 0] [] [] [0, 10] := by
      rw [gatherLoop_vis cycGraphC7 [10, 0] 0 [] [] [0, 10] (by simp)]
    rw [gatherListed, gatherModel, e1, e2, e3, gatherLoop_nil]

/-- A sheet with id 5 reachable through two different folders and through a
shortcut as well. -/
def diamondGraphC10 : Graph :=
  [(0, [⟨1, "D1".data, .folderM, 0, .other⟩, ⟨2, "D2".data, .folderM, 0, .other⟩,
        ⟨3, "L".data, .shortcutM, 5, .sheet⟩]),
   (1, [⟨5, "F".data, .sheet, 0, .other⟩]),
   (2, [⟨5, "F".data, .sheet, 0, .other⟩])]

/-- C10: the file-gathering pass returns at most one entry per remote file
id — the `found` dict is keyed by id, so the returned values have
duplicate-free ids; concretely, a sheet reachable through two folders and
through a shortcut appears exactly once in the returned list. -/
theorem C10_at_most_one_entry_per_file_id :
    (∀ (g : Graph) (root : Nat), ((gatherResult g root).map Entry.id).Nodup) ∧
    gatherResult diamondGraphC10 0 = [⟨5, "F".data, .sheet⟩] := by
  constructor
  · intro g root
    have h := gatherLoop_spec g [] [root] [] [] (by simp) (by simp) (by simp) (by simp)
      (by simp)
    have hids : (gatherModel g root).1.map (fun e => Entry.id e.2) =
        (gatherModel g root).1.map (fun e => e.1) :=
      List.map_congr_left (fun e he => h.2.2.2.1 e he)
    rw [gatherResult, List.map_map]
    simpa [Function.comp] using hids ▸ h.2.2.1
  · have e1 : gatherLoop diamondGraphC10 [] [0] [] [] =
        gatherLoop diamondGraphC10 [0] [1, 2]
          [(5, ⟨5, "L (shortcut)".data, .sheet⟩)] [0] := by
      rw [gatherLoop_new diamondGraphC10 [] 0 [] [] [] (by simp)]
      rfl
    have e2 : gatherLoop diamondGraphC10 [0] [1, 2]
          [(5, ⟨5, "L (shortcut)".data, .sheet⟩)] [0] =
        gatherLoop diamondGraphC10 [1, 0] [2] [(5, ⟨5, "F".data, .sheet⟩)] [0, 1] := by
      rw [gatherLoop_new diamondGraphC10 [0] 1 [2]
        [(5, ⟨5, "L (shortcut)".data, .sheet⟩)] [0] (by simp)]
      rfl
    have e3 : gatherLoop diamondGraphC10 [1, 0] [2] [(5, ⟨5, "F".data, .sheet⟩)] [0, 1] =
        gatherLoop diamondGraphC10 [2, 1, 0] [] [(5, ⟨5, "F".data, .sheet⟩)] [0, 1, 2] := by
      rw [gatherLoop_new diamondGraphC10 [1, 0] 2 [] [(5, ⟨5, "F".data, .sheet⟩)] [0, 1]
        (by simp)]
      rfl
    rw [gatherResult, gatherModel, e1, e2, e3, gatherLoop_nil]
    rfl

/-- A shortcut to a folder (id 7, holding a sheet) and, in a second graph, a
shortcut to a sheet, to exhibit how the walk treats link objects. -/
def folderLinkGraphC8 : Graph :=
  [(0, [⟨3, "L".data, .shortcutM, 7, .folderM⟩]),
   (7, [⟨8, "S".data, .sheet, 0, .other⟩])]

/-- Second graph for C8: a shortcut to a sheet. -/
def fileLinkGraphC8 : Graph :=
  [(0, [⟨3, "L".data, .shortcutM, 5, .sheet⟩])]

/-- C8 counterexample: the claim says a Link whose target is a Folder is
recursed into as if it were that folder (so folder 7 would be listed and its
sheet 8 found), and that a Link to a File yields a copy carrying the link's
display name.  The code does neither: the folder shortcut is ignored
entirely (nothing found, only the root listed), and the file-shortcut entry
carries the annotated name `L (shortcut)`, not `L`. -/
theorem C8_counterexample :
    gatherResult folderLinkGraphC8 0 = [] ∧ gatherListed folderLinkGraphC8 0 = [0] ∧
    gatherResult fileLinkGraphC8 0 = [⟨5, "L (shortcut)".data, .sheet⟩] ∧
    ("L (shortcut)".data : Str) ≠ "L".data := by
  have e1 : gatherLoop folderLinkGraphC8 [] [0] [] [] =
      gatherLoop folderLinkGraphC8 [0] [] [] [0] := by
    rw [gatherLoop_new folderLinkGraphC8 [] 0 [] [] [] (by simp)]
    rfl
  have e2 : gatherLoop fileLinkGraphC8 [] [0] [] [] =
      gatherLoop fileLinkGraphC8 [0] [] [(5, ⟨5, "L (shortcut)".data, .sheet⟩)] [0] := by
    rw [gatherLoop_new fileLinkGraphC8 [] 0 [] [] [] (by simp)]
    rfl
  refine ⟨?_, ?_, ?_, by decide⟩
  · rw [gatherResult, gatherModel, e1, gatherLoop_nil]
    rfl
  · rw [gatherListed, gatherModel, e1, gatherLoop_nil]
  · rw [gatherResult, gatherModel, e2, gatherLoop_nil]
    rfl

/-- C8 amended: the walk never recurses through a Link — every listed folder
other than the root comes from a folder-mime child somewhere in the graph
(never from a shortcut's target) — and a Link whose target mime passes the
filter yields an entry keyed by the *target* id whose name is the link's
display name annotated with `" (shortcut)"`; a Link whose target is a
Folder contributes nothing. -/
theorem C8_links_never_recursed_file_links_annotated :
    (∀ (g : Graph) (root : Nat) (x : Nat),
      x ∈ gatherListed g root → x = root ∨ x ∈ folderChildIds g) ∧
    (∀ (g : Graph) (root : Nat) (e : Nat × Entry),
      e ∈ (gatherModel g root).1 → EntryProv g e) ∧
    gatherResult fileLinkGraphC8 0 = [⟨5, "L (shortcut)".data, .sheet⟩] ∧
    gatherResult folderLinkGraphC8 0 = [] := by
  have e1 : gatherLoop folderLinkGraphC8 [] [0] [] [] =
      gatherLoop folderLinkGraphC8 [0] [] [] [0] := by
    rw [gatherLoop_new folderLinkGraphC8 [] 0 [] [] [] (by simp)]
    rfl
  have e2 : gatherLoop fileLinkGraphC8 [] [0] [] [] =
      gatherLoop fileLinkGraphC8 [0] [] [(5, ⟨5, "L (shortcut)".data, .sheet⟩)] [0] := by
    rw [gatherLoop_new fileLinkGraphC8 [] 0 [] [] [] (by simp)]
    rfl
  refine ⟨?_, ?_, ?_, ?_⟩
  · intro g root x hx
    have h := gatherLoop_spec g [] [root] [] [] (by simp) (by simp) (by simp) (by simp)
      (by simp)
    rcases h.2.1 x hx with hc | hc | hc
    · cases hc
    · simp only [List.mem_singleton] at hc
      exact Or.inl hc
    · exact Or.inr hc
  · intro g root e he
    have h := gatherLoop_spec g [] [root] [] [] (by simp) (by simp) (by simp) (by simp)
      (by simp)
    exact h.2.2.2.2 e he
  · rw [gatherResult, gatherModel, e2, gatherLoop_nil]
    rfl
  · rw [gatherResult, gatherModel, e1, gatherLoop_nil]
    rfl

/-- Witness for C8's amended theorem: the root is the only listed folder of
the folder-shortcut graph, and the file-shortcut entry has the annotated
provenance. -/
theorem C8_links_never_recursed_witness :
    ((0 : Nat) = 0 ∨ (0 : Nat) ∈ folderChildIds folderLinkGraphC8) ∧
    EntryProv fileLinkGraphC8 (5, ⟨5, "L (shortcut)".data, .sheet⟩) ∧
    gatherResult fileLinkGraphC8 0 = [⟨5, "L (shortcut)".data, .sheet⟩] ∧
    gatherResult folderLinkGraphC8 0 = [] := by
  have h := C8_links_never_recursed_file_links_annotated
  have e1 : gatherLoop folderLinkGraphC8 [] [0] [] [] =
      gatherLoop folderLinkGraphC8 [0] [] [] [0] := by
    rw [gatherLoop_new folderLinkGraphC8 [] 0 [] [] [] (by simp)]
    rfl
  have e2 : gatherLoop fileLinkGraphC8 [] [0] [] [] =
      gatherLoop fileLinkGraphC8 [0] [] [(5, ⟨5, "L (shortcut)".data, .sheet⟩)] [0] := by
    rw [gatherLoop_new fileLinkGraphC8 [] 0 [] [] [] (by simp)]
    rfl
  refine ⟨h.1 folderLinkGraphC8 0 0 ?_, h.2.1 fileLinkGraphC8 0
    (5, ⟨5, "L (shortcut)".data, .sheet⟩) ?_, h.2.2.1, h.2.2.2⟩
  · rw [gatherListed, gatherModel, e1, gatherLoop_nil]
    simp
  · rw [gatherModel, e2, gatherLoop_nil]
    simp

/-!
Model of `rotate_backups` from weekly_backup.py.  The input `children` is
what the listing query returns: the folder-mime children of DEST_FOLDER_ID
owned by the service account, as `(id, name)` pairs.  Names parsing as
`%d.%m.%Y` (Python `datetime.strptime`) are kept, sorted descending by the
parsed date (`reverse=True`), and every entry beyond the first KEEP is
deleted through `gapi_execute(drive.files().delete(...))`; `delOK i` tells
whether that delete call succeeds — on failure `gapi_execute` re-raises and
nothing in `rotate_backups` catches it, so the loop stops and the exception
propagates (second component `some i`).
-/

/-- Gregorian leap year, as `datetime` uses. -/
def isLeap (y : Nat) : Bool := (y % 4 == 0 && y % 100 != 0) || (y % 400 == 0)

/-- Days in a month, for `datetime`'s day-of-month validation. -/
def daysInMonth (m y : Nat) : Nat :=
  if m = 2 then (if isLeap y then 29 else 28)
  else if m = 4 ∨ m = 6 ∨ m = 9 ∨ m = 11 then 30
  else 31

/-- Numeric value of a digit string. -/
def digitsVal (ds : Str) : Nat := ds.foldl (fun a c => a * 10 + (c.toNat - 48)) 0

/-- `datetime.strptime(name, "%d.%m.%Y")`: one or two digits of day, a dot,
one or two digits of month, a dot, exactly four digits of year, nothing
after; the triple must denote a real calendar date (year at least 1).
Returns `(y, m, d)` so that the tuple order is the chronological order. -/
def dateParse (s : Str) : Option (Nat × Nat × Nat) :=
  match s.span Char.isDigit with
  | (ds, '.' :: r1) =>
    if ds.length = 0 ∨ 2 < ds.length then none
    else
      match r1.span Char.isDigit with
      | (ms, '.' :: r2) =>
        if ms.length = 0 ∨ 2 < ms.length then none
        else
          match r2.span Char.isDigit with
          | (ys, []) =>
            if ys.length = 4 then
              if 1 ≤ digitsVal ys ∧ 1 ≤ digitsVal ms ∧ digitsVal ms ≤ 12 ∧
                  1 ≤ digitsVal ds ∧ digitsVal ds ≤ daysInMonth (digitsVal ms) (digitsVal ys)
              then some (digitsVal ys, digitsVal ms, digitsVal ds)
              else none
            else none
          | _ => none
      | _ => none
  | _ => none

/-- Chronological order on parsed dates (`datetime` comparison). -/
def dateLE (a b : Nat × Nat × Nat) : Bool :=
  decide (a.1 < b.1 ∨ (a.1 = b.1 ∧ (a.2.1 < b.2.1 ∨ (a.2.1 = b.2.1 ∧ a.2.2 ≤ b.2.2))))

/-- Sort key of a dated child (`datetime.strptime(f["name"], DATE_FMT)`;
only applied to entries that parse, the default is never used). -/
def keyOf (e : Nat × Str) : Nat × Nat × Nat := (dateParse e.2).getD (0, 0, 0)

/-- Insert into a descending-sorted list (stable, as Python's sort). -/
def insDesc (x : Nat × Str) : List (Nat × Str) → List (Nat × Str)
  | [] => [x]
  | y :: ys => if dateLE (keyOf y) (keyOf x) then x :: y :: ys else y :: insDesc x ys

/-- `dated.sort(key=..., reverse=True)`. -/
def sortDesc : List (Nat × Str) → List (Nat × Str)
  | [] => []
  | x :: xs => insDesc x (sortDesc xs)

/-- The entries whose name parses as the date format. -/
def datedOf (children : List (Nat × Str)) : List (Nat × Str) :=
  children.filter (fun e => (dateParse e.2).isSome)

/-- The deletion loop over `dated[KEEP:]`: delete each snapshot in turn;
a failing delete re-raises out of `rotate_backups`, leaving the remaining
snapshots untouched. -/
def rotateDeleteLoop (delOK : Nat → Bool) :
    List (Nat × Str) → List (Nat × Str) → (List (Nat × Str)) × Option Nat
  | [], st => (st, none)
  | f :: rest, st =>
    if delOK f.1 then rotateDeleteLoop delOK rest (st.filter (fun e => !(e.1 == f.1)))
    else (st, some f.1)

/-- `rotate_backups`: keep the newest KEEP dated snapshots, delete the rest. -/
def rotateBackups (delOK : Nat → Bool) (keep : Nat) (children : List (Nat × Str)) :
    (List (Nat × Str)) × Option Nat :=
  rotateDeleteLoop delOK ((sortDesc (datedOf children)).drop keep) children

theorem dateLE_total (a b : Nat × Nat × Nat) : dateLE a b = true ∨ dateLE b a = true := by
  simp only [dateLE, decide_eq_true_eq]
  omega

theorem dateLE_trans (a b c : Nat × Nat × Nat) (h1 : dateLE a b = true)
    (h2 : dateLE b c = true) : dateLE a c = true := by
  simp only [dateLE, decide_eq_true_eq] at h1 h2 ⊢
  omega

theorem insDesc_perm (x : Nat × Str) : ∀ l : List (Nat × Str), (insDesc x l).Perm (x :: l) := by
  intro l
  induction l with
  | nil => simp [insDesc]
  | cons y ys ih =>
    by_cases h : dateLE (keyOf y) (keyOf x)
    · simp [insDesc, h]
    · simp only [insDesc, h, if_false, Bool.false_eq_true]
      exact (ih.cons y).trans (List.Perm.swap x y ys)

theorem sortDesc_perm : ∀ l : List (Nat × Str), (sortDesc l).Perm l := by
  intro l
  induction l with
  | nil => simp [sortDesc]
  | cons x xs ih => exact (insDesc_perm x (sortDesc xs)).trans (ih.cons x)

theorem mem_insDesc (x w : Nat × Str) (l : List (Nat × Str)) :
    w ∈ insDesc x l ↔ w = x ∨ w ∈ l := by
  rw [(insDesc_perm x l).mem_iff]
  simp

theorem pairwise_insDesc (x : Nat × Str) : ∀ l : List (Nat × Str),
    l.Pairwise (fun a b => dateLE (keyOf b) (keyOf a) = true) →
    (insDesc x l).Pairwise (fun a b => dateLE (keyOf b) (keyOf a) = true) := by
  intro l
  induction l with
  | nil => intro _; simp [insDesc]
  | cons y ys ih =>
    intro h
    rcases List.pairwise_cons.mp h with ⟨hy, hys⟩
    by_cases hc : dateLE (keyOf y) (keyOf x)
    · simp only [insDesc, hc, if_true]
      refine List.pairwise_cons.mpr ⟨?_, h⟩
      intro z hz
      rcases List.mem_cons.mp hz with rfl | hz2
      · exact hc
      · exact dateLE_trans _ _ _ (hy z hz2) hc
    · simp only [insDesc, hc, if_false, Bool.false_eq_true]
      refine List.pairwise_cons.mpr ⟨?_, ih hys⟩
      intro z hz
      rcases (mem_insDesc x z ys).mp hz with rfl | hz2
      · rcases dateLE_total (keyOf y) (keyOf z) with hh | hh
        · exact absurd hh hc
        · exact hh
      · exact hy z hz2

theorem pairwise_sortDesc : ∀ l : List (Nat × Str),
    (sortDesc l).Pairwise (fun a b => dateLE (keyOf b) (keyOf a) = true) := by
  intro l
  induction l with
  | nil => simp [sortDesc]
  | cons x xs ih => exact pairwise_insDesc x (sortDesc xs) ih

theorem rotateDeleteLoop_success (delOK : Nat → Bool) : ∀ (toDel st : List (Nat × Str)),
    (∀ i ∈ toDel.map (fun e => e.1), delOK i = true) →
    rotateDeleteLoop delOK toDel st =
      (st.filter (fun e => decide (e.1 ∉ toDel.map (fun x => x.1))), none) := by
  intro toDel
  induction toDel with
  | nil => intro st _; simp [rotateDeleteLoop]
  | cons f rest ih =>
    intro st hall
    have hf : delOK f.1 = true := hall f.1 (by simp)
    rw [rotateDeleteLoop, if_pos hf,
      ih _ (fun i hi => hall i (List.mem_cons_of_mem _ hi)), List.filter_filter]
    congr 1
    apply List.filter_congr
    intro e _
    by_cases h1 : e.1 = f.1
    · simp [h1]
    · simp [h1, Bool.and_comm]

theorem rotateDeleteLoop_failure (delOK : Nat → Bool) : ∀ (toDel st : List (Nat × Str)),
    (∃ i ∈ toDel.map (fun e => e.1), delOK i = false) →
    ((rotateDeleteLoop delOK toDel st).2).isSome = true := by
  intro toDel
  induction toDel with
  | nil => intro st h; simp at h
  | cons f rest ih =>
    intro st h
    by_cases hf : delOK f.1 = true
    · rw [rotateDeleteLoop, if_pos hf]
      obtain ⟨i, hi, hfalse⟩ := h
      rcases List.mem_cons.mp hi with rfl | hi2
      · rw [hf] at hfalse
        cases hfalse
      · exact ih _ ⟨i, hi2, hfalse⟩
    · rw [rotateDeleteLoop, if_neg hf]
      rfl

theorem datedOf_filter (children : List (Nat × Str)) (p : (Nat × Str) → Bool) :
    datedOf (children.filter p) = (datedOf children).filter p := by
  unfold datedOf
  rw [List.filter_filter, List.filter_filter]
  apply List.filter_congr
  intro e _
  exact Bool.and_comm _ _

theorem filter_drop_perm_take (D T R : List (Nat × Str))
    (hperm : (T ++ R).Perm D) (hn : ((T ++ R).map (fun e => e.1)).Nodup) :
    (D.filter (fun e => decide (e.1 ∉ R.map (fun x => x.1)))).Perm T := by
  have h0 := hn
  rw [List.map_append] at h0
  obtain ⟨hTn, hRn, hdisj⟩ := List.nodup_append.mp h0
  have hTfull : T.filter (fun e => decide (e.1 ∉ R.map (fun x => x.1))) = T := by
    rw [List.filter_eq_self]
    intro a ha
    simp only [decide_eq_true_eq]
    exact fun hmem => hdisj (List.mem_map.mpr ⟨a, ha, rfl⟩) hmem
  have hRnil : R.filter (fun e => decide (e.1 ∉ R.map (fun x => x.1))) = [] := by
    rw [List.filter_eq_nil_iff]
    intro a ha
    simp only [decide_eq_true_eq, not_not]
    exact List.mem_map.mpr ⟨a, ha, rfl⟩
  have hp := (List.Perm.filter (fun e => decide (e.1 ∉ R.map (fun x => x.1))) hperm).symm
  rw [List.filter_append, hTfull, hRnil, List.append_nil] at hp
  exact hp

/-- C4 amended: when every delete call succeeds, rotation removes exactly
the dated snapshots beyond the first `keep` of the descending date order,
so `min keep count` most-recent ones remain (and each kept snapshot is at
least as recent as every deleted one); but when some delete in
`dated[keep:]` fails terminally, the exception propagates out of
`rotate_backups` (`isSome`), aborting the rest of the rotation instead of
being recorded and skipped. -/
theorem C4_rotation_min_keep_and_abort_on_failure (delOK : Nat → Bool) (keep : Nat)
    (children : List (Nat × Str)) (hn : (children.map (fun e => e.1)).Nodup) :
    ((∀ i ∈ ((sortDesc (datedOf children)).drop keep).map (fun e => e.1), delOK i = true) →
      (rotateBackups delOK keep children).2 = none ∧
      (datedOf (rotateBackups delOK keep children).1).length =
        min keep (datedOf children).length ∧
      (∀ e, e ∈ datedOf (rotateBackups delOK keep children).1 ↔
        e ∈ (sortDesc (datedOf children)).take keep)) ∧
    (∀ x ∈ (sortDesc (datedOf children)).take keep,
      ∀ y ∈ (sortDesc (datedOf children)).drop keep, dateLE (keyOf y) (keyOf x) = true) ∧
    ((∃ i ∈ ((sortDesc (datedOf children)).drop keep).map (fun e => e.1), delOK i = false) →
      ((rotateBackups delOK keep children).2).isSome = true) := by
  have hDn : ((datedOf children).map (fun e => e.1)).Nodup :=
    ((List.filter_sublist children).map (fun e => e.1)).nodup hn
  have hSperm : (sortDesc (datedOf children)).Perm (datedOf children) :=
    sortDesc_perm (datedOf children)
  have hSn : ((sortDesc (datedOf children)).map (fun e => e.1)).Nodup :=
    (hSperm.map (fun e => e.1)).nodup_iff.mpr hDn
  refine ⟨?_, ?_, ?_⟩
  · intro hall
    have hloop := rotateDeleteLoop_success delOK
      ((sortDesc (datedOf children)).drop keep) children hall
    rw [rotateBackups, hloop]
    have hchain := filter_drop_perm_take (datedOf children)
      ((sortDesc (datedOf children)).take keep) ((sortDesc (datedOf children)).drop keep)
      (by rw [List.take_append_drop]; exact hSperm)
      (by rw [List.take_append_drop]; exact hSn)
    refine ⟨rfl, ?_, ?_⟩
    · rw [datedOf_filter, hchain.length_eq, List.length_take, hSperm.length_eq]
    · intro e
      rw [datedOf_filter]
      exact hchain.mem_iff
  · intro x hx y hy
    have hp := pairwise_sortDesc (datedOf children)
    rw [← List.take_append_drop keep (sortDesc (datedOf children))] at hp
    exact (List.pairwise_append.mp hp).2.2 x hx y hy
  · intro hex
    exact rotateDeleteLoop_failure delOK _ children hex


/-- Seven dated snapshots, one per day of January 2025. -/
def rotChildrenC4 : List (Nat × Str) :=
  [(1, "01.01.2025".data), (2, "02.01.2025".data), (3, "03.01.2025".data),
   (4, "04.01.2025".data), (5, "05.01.2025".data), (6, "06.01.2025".data),
   (7, "07.01.2025".data)]

/-- Witness for C4: with seven dated snapshots and `keep = 5`, an all-success
rotation returns no error and leaves `min 5 7 = 5` dated snapshots, while a
rotation whose delete of snapshot 2 fails raises. -/
theorem C4_rotation_witness :
    (rotateBackups (fun _ => true) 5 rotChildrenC4).2 = none ∧
    (datedOf (rotateBackups (fun _ => true) 5 rotChildrenC4).1).length =
      min 5 (datedOf rotChildrenC4).length ∧
    ((rotateBackups (fun i => !(i == 2)) 5 rotChildrenC4).2).isSome = true := by
  refine ⟨?_, ?_, ?_⟩
  · exact ((C4_rotation_min_keep_and_abort_on_failure (fun _ => true) 5 rotChildrenC4
      (by decide)).1 (by decide)).1
  · exact ((C4_rotation_min_keep_and_abort_on_failure (fun _ => true) 5 rotChildrenC4
      (by decide)).1 (by decide)).2.1
  · exact (C4_rotation_min_keep_and_abort_on_failure (fun i => !(i == 2)) 5 rotChildrenC4
      (by decide)).2.2 (by decide)

/-- C4 counterexample: rotation of seven dated snapshots with `keep = 5`
must delete snapshots 2 and 1 (the two oldest); the delete of snapshot 2
fails, and instead of recording it and carrying on with snapshot 1 (which
would be deletable), `rotate_backups` re-raises immediately: all seven
snapshots remain — not `min 5 7 = 5` — and the exception propagates. -/
theorem C4_counterexample :
    rotateBackups (fun i => !(i == 2)) 5 rotChildrenC4 = (rotChildrenC4, some 2) ∧
    (datedOf rotChildrenC4).length = 7 ∧
    (fun i => !(i == 2)) 1 = true := by
  refine ⟨by decide, by decide, by decide⟩

/-!
Models of the dated-snapshot creation in main.py and weekly_backup.py.
The destination root's relevant children are `(id, name)` pairs.
-/

/-- main.py lines 346-368: query the children named `today`; if any exist,
`delete_folder_recursive` the *first* match; then create a fresh dated
folder (id `newId`).  The existing folder is never reused. -/
def mainPyWipeCreate (today : Str) (newId : Nat) (st : List (Nat × Str)) :
    List (Nat × Str) :=
  match st.filter (fun e => e.2 == today) with
  | [] => st ++ [(newId, today)]
  | (i, _) :: _ => (st.filter (fun e => !(e.1 == i))) ++ [(newId, today)]

/-- weekly_backup.py main: `rotate_backups`, then create the dated folder
unconditionally — no check for an existing folder of the same name.  An
exception escaping rotation aborts before the create. -/
def weeklyRun (delOK : Nat → Bool) (keep : Nat) (today : Str) (newId : Nat)
    (st : List (Nat × Str)) : (List (Nat × Str)) × Option Nat :=
  match rotateBackups delOK keep st with
  | (st2, none) => (st2 ++ [(newId, today)], none)
  | (st2, some e) => (st2, some e)

/-- C5 counterexample: rerunning weekly_backup.py on a day whose snapshot
already exists creates a second top-level folder with today's name (two
children named `12.10.2025`, not one); and main.py does not reuse the
existing folder — it deletes folder 1 and creates a fresh folder 2. -/
theorem C5_counterexample :
    weeklyRun (fun _ => true) 5 ("12.10.2025".data) 2 [(1, "12.10.2025".data)] =
      ([(1, "12.10.2025".data), (2, "12.10.2025".data)], none) ∧
    ((weeklyRun (fun _ => true) 5 ("12.10.2025".data) 2
        [(1, "12.10.2025".data)]).1.filter
      (fun e => e.2 == "12.10.2025".data)).length = 2 ∧
    mainPyWipeCreate ("12.10.2025".data) 2 [(1, "12.10.2025".data)] = [(2, "12.10.2025".data)] := by
  refine ⟨by decide, by decide, by decide⟩

/-- C5 amended: main.py keeps the destination at exactly one top-level
folder named with today's date, but by deleting the first existing match
and creating a fresh folder (new id, old folder gone — not reused);
weekly_backup.py creates a dated folder unconditionally, so when rotation
deletes nothing a rerun adds one more today-named folder than before. -/
theorem C5_mainPy_unique_today_weekly_duplicates (today : Str) (newId oldId : Nat)
    (st : List (Nat × Str)) (delOK : Nat → Bool) (keep : Nat)
    (hone : st.filter (fun e => e.2 == today) = [(oldId, today)])
    (hfresh : newId ∉ st.map (fun e => e.1))
    (hnorot : (sortDesc (datedOf st)).drop keep = []) :
    (mainPyWipeCreate today newId st).filter (fun e => e.2 == today) = [(newId, today)] ∧
    newId ≠ oldId ∧
    weeklyRun delOK keep today newId st = (st ++ [(newId, today)], none) ∧
    ((st ++ [(newId, today)]).filter (fun e => e.2 == today)).length =
      (st.filter (fun e => e.2 == today)).length + 1 := by
  have hold : oldId ∈ st.map (fun e => e.1) := by
    have hmem : (oldId, today) ∈ st.filter (fun e => e.2 == today) := by
      rw [hone]
      exact List.mem_singleton.mpr rfl
    exact List.mem_map.mpr ⟨(oldId, today), List.mem_of_mem_filter hmem, rfl⟩
  refine ⟨?_, ?_, ?_, ?_⟩
  · rw [mainPyWipeCreate, hone, List.filter_append, List.filter_filter]
    have h1 : st.filter (fun e => e.2 == today && !(e.1 == oldId)) = [] := by
      have hcomm : ∀ e : Nat × Str, (e.2 == today && !(e.1 == oldId)) =
          ((!(e.1 == oldId)) && (e.2 == today)) := fun e => Bool.and_comm _ _
      rw [List.filter_congr (fun e _ => hcomm e), ← List.filter_filter, hone]
      simp
    rw [h1]
    simp
  · exact fun h => hfresh (h ▸ hold)
  · rw [weeklyRun, rotateBackups, hnorot]
    rw [show rotateDeleteLoop delOK [] st = (st, none) from rfl]
  · rw [List.filter_append]
    simp

/-- Witness for C5's amended theorem at a concrete state holding one
today-named folder (id 1) among others, with fresh id 9. -/
theorem C5_mainPy_unique_today_weekly_duplicates_witness :
    (mainPyWipeCreate ("12.10.2025".data) 9
        [(1, "12.10.2025".data), (3, "misc".data)]).filter
      (fun e => e.2 == "12.10.2025".data) = [(9, "12.10.2025".data)] ∧
    (9 : Nat) ≠ 1 ∧
    weeklyRun (fun _ => true) 5 ("12.10.2025".data) 9
        [(1, "12.10.2025".data), (3, "misc".data)] =
      ([(1, "12.10.2025".data), (3, "misc".data), (9, "12.10.2025".data)], none) ∧
    ((([(1, "12.10.2025".data), (3, "misc".data)] : List (Nat × Str)) ++
        [(9, "12.10.2025".data)]).filter
      (fun e : Nat × Str => e.2 == "12.10.2025".data)).length =
      (([(1, "12.10.2025".data), (3, "misc".data)] : List (Nat × Str)).filter
        (fun e : Nat × Str => e.2 == "12.10.2025".data)).length + 1 := by
  have h := C5_mainPy_unique_today_weekly_duplicates ("12.10.2025".data) 9 1
    [(1, "12.10.2025".data), (3, "misc".data)] (fun _ => true) 5
    (by decide) (by decide) (by decide)
  exact ⟨h.1, h.2.1, by rw [h.2.2.1]; rfl, h.2.2.2⟩

/-!
Model of the per-file copy loop of main.py (lines 374-424): each gathered
file is copied (or download-converted, which raises the same way); an
`HttpError` with status 403 falls back to `create_shortcut` and the loop
continues; any other `HttpError` is re-raised, aborting the whole run.
-/

/-- Outcome of the copy/convert calls for one file id. -/
inductive CopyRes : Type where
  | ok : CopyRes
  | http : Nat → CopyRes
deriving DecidableEq

/-- The main.py copy loop: returns the processed events
`(file id, true = copied/converted, false = shortcut fallback)` and
`some status` when an unhandled `HttpError` aborted the run. -/
def mainCopyLoop (res : Nat → CopyRes) : List (Nat × Str) → (List (Nat × Bool)) × Option Nat
  | [] => ([], none)
  | f :: rest =>
    match res f.1 with
    | .ok =>
      match mainCopyLoop res rest with
      | (evs, ab) => ((f.1, true) :: evs, ab)
    | .http s =>
      if s = 403 then
        match mainCopyLoop res rest with
        | (evs, ab) => ((f.1, false) :: evs, ab)
      else ([], some s)

/-- C3 counterexample: a terminal not-found (404) on the very first file of
main.py's copy loop aborts the run — no events are recorded and the second
file is never processed — even though the second file's copy would succeed;
and conversely a 403 (the quota status) does not abort.  This contradicts
both halves of the claim (per-item Terminal failures never abort; only
QuotaExceeded aborts). -/
theorem C3_counterexample :
    mainCopyLoop (fun i => if i = 1 then .http 404 else .ok)
      [(1, "a".data), (2, "b".data)] = ([], some 404) ∧
    mainCopyLoop (fun i => if i = 1 then .http 403 else .ok)
      [(1, "a".data), (2, "b".data)] = ([(1, false), (2, true)], none) := by
  refine ⟨by decide, by decide⟩

theorem mainCopyLoop_cons_ok (res : Nat → CopyRes) (f : Nat × Str) (rest : List (Nat × Str))
    (h : res f.1 = .ok) :
    mainCopyLoop res (f :: rest) =
      ((f.1, true) :: (mainCopyLoop res rest).1, (mainCopyLoop res rest).2) := by
  rcases hres : mainCopyLoop res rest with ⟨evs, ab⟩
  simp only [mainCopyLoop, h, hres]

theorem mainCopyLoop_cons_403 (res : Nat → CopyRes) (f : Nat × Str) (rest : List (Nat × Str))
    (h : res f.1 = .http 403) :
    mainCopyLoop res (f :: rest) =
      ((f.1, false) :: (mainCopyLoop res rest).1, (mainCopyLoop res rest).2) := by
  rcases hres : mainCopyLoop res rest with ⟨evs, ab⟩
  simp [mainCopyLoop, h, hres]

theorem mainCopyLoop_cons_err (res : Nat → CopyRes) (f : Nat × Str) (rest : List (Nat × Str))
    (s : Nat) (h : res f.1 = .http s) (hs : s ≠ 403) :
    mainCopyLoop res (f :: rest) = ([], some s) := by
  simp only [mainCopyLoop, h, if_neg hs]

theorem mainCopyLoop_all_handled (res : Nat → CopyRes) : ∀ files : List (Nat × Str),
    (∀ f ∈ files, res f.1 = .ok ∨ res f.1 = .http 403) →
    (mainCopyLoop res files).2 = none ∧
    (mainCopyLoop res files).1.length = files.length := by
  intro files
  induction files with
  | nil => intro _; simp [mainCopyLoop]
  | cons f rest ih =>
    intro hall
    have hrest := ih (fun x hx => hall x (List.mem_cons_of_mem _ hx))
    rcases hall f (List.mem_cons_self _ _) with hf | hf
    · rw [mainCopyLoop_cons_ok res f rest hf]
      exact ⟨hrest.1, by simp [hrest.2]⟩
    · rw [mainCopyLoop_cons_403 res f rest hf]
      exact ⟨hrest.1, by simp [hrest.2]⟩

theorem mainCopyLoop_abort (res : Nat → CopyRes) : ∀ (pre : List (Nat × Str))
    (f : Nat × Str) (post : List (Nat × Str)) (s : Nat),
    (∀ x ∈ pre, res x.1 = .ok ∨ res x.1 = .http 403) →
    res f.1 = .http s → s ≠ 403 →
    mainCopyLoop res (pre ++ f :: post) = ((mainCopyLoop res pre).1, some s) := by
  intro pre
  induction pre with
  | nil =>
    intro f post s _ hf hs
    rw [List.nil_append, mainCopyLoop_cons_err res f post s hf hs]
    rfl
  | cons p rest ih =>
    intro f post s hall hf hs
    have hp := hall p (List.mem_cons_self _ _)
    have hrest := ih f post s (fun x hx => hall x (List.mem_cons_of_mem _ hx)) hf hs
    rcases hp with hp | hp
    · rw [List.cons_append, mainCopyLoop_cons_ok res p (rest ++ f :: post) hp, hrest,
        mainCopyLoop_cons_ok res p rest hp]
    · rw [List.cons_append, mainCopyLoop_cons_403 res p (rest ++ f :: post) hp, hrest,
        mainCopyLoop_cons_403 res p rest hp]

/-- C3 amended: in main.py's copy loop, files whose copy succeeds or fails
with 403 (the shortcut fallback) are all processed and the run does not
abort; but the first `HttpError` with any other status (for instance 404,
not-found) re-raises: only the items before it are processed and the run
aborts with that status.  In weekly_backup's `clone_folder`, by contrast,
every `HttpError` on a single file copy — the quota 403 included — is
caught, logged and skipped: the clone always completes (`Except.ok`)
whatever the per-file copy outcomes. -/
theorem C3_per_item_failures (res : Nat → CopyRes) (files pre post : List (Nat × Str))
    (f : Nat × Str) (s : Nat) (ok : Nat → Bool) (fid : Nat) (nm : Str) (cs : DForest)
    (hall : ∀ x ∈ files, res x.1 = .ok ∨ res x.1 = .http 403)
    (hpre : ∀ x ∈ pre, res x.1 = .ok ∨ res x.1 = .http 403)
    (hf : res f.1 = .http s) (hs : s ≠ 403)
    (hnames : namesOkF cs = true) :
    ((mainCopyLoop res files).2 = none ∧
      (mainCopyLoop res files).1.length = files.length) ∧
    mainCopyLoop res (pre ++ f :: post) = ((mainCopyLoop res pre).1, some s) ∧
    ∃ R : FolderRes, cloneFolderM ok fid nm cs = .ok R := by
  refine ⟨mainCopyLoop_all_handled res files hall,
    mainCopyLoop_abort res pre f post s hpre hf hs, ?_⟩
  obtain ⟨o, ho, _⟩ := cloneKids_spec ok [] cs hnames
  exact ⟨.mk fid nm o.acts o.dups o.subs, by simp [cloneFolderM, ho]⟩

/-- Witness for C3's amended theorem: files 1 (403 → shortcut) and 2 (ok)
are fully processed; with file 3 failing 404 after the handled prefix
`[(1, a)]`, the loop stops there; and a clone whose copies all fail still
completes. -/
theorem C3_per_item_failures_witness :
    ((mainCopyLoop (fun i => if i = 1 then .http 403 else (if i = 3 then .http 404 else .ok))
        [(1, "a".data), (2, "b".data)]).2 = none ∧
      (mainCopyLoop (fun i => if i = 1 then .http 403 else (if i = 3 then .http 404 else .ok))
        [(1, "a".data), (2, "b".data)]).1.length =
        ([(1, "a".data), (2, "b".data)] : List (Nat × Str)).length) ∧
    mainCopyLoop (fun i => if i = 1 then .http 403 else (if i = 3 then .http 404 else .ok))
        ([(1, "a".data)] ++ (3, "c".data) :: [(4, "d".data)]) =
      ((mainCopyLoop (fun i => if i = 1 then .http 403 else (if i = 3 then .http 404 else .ok))
        [(1, "a".data)]).1, some 404) ∧
    ∃ R : FolderRes, cloneFolderM (fun _ => false) 0 ("Root".data)
      (.cons (.file 1 ("a.txt".data)) (.cons (.file 2 ("b.txt".data)) .nil)) = .ok R :=
  C3_per_item_failures (fun i => if i = 1 then .http 403 else (if i = 3 then .http 404 else .ok))
    [(1, "a".data), (2, "b".data)] [(1, "a".data)] [(4, "d".data)] (3, "c".data)
    404 (fun _ => false) 0 ("Root".data)
    (.cons (.file 1 ("a.txt".data)) (.cons (.file 2 ("b.txt".data)) .nil))
    (by decide) (by decide) (by decide) (by decide) (by decide)

/-!
Model of `gapi_execute` from weekly_backup.py (lines 329-350): up to
`max_tries = 7` attempts; every caught exception is one of TRANSIENT_EXC —
an `HttpError` (status plus whether the body contains a rate-limit marker)
or a transport/credential-refresh error (`RefreshError`, `ssl.SSLError`,
`socket.timeout`, connection errors, `OSError`); a non-retriable
`HttpError` is re-raised at once; otherwise, when attempts remain, the loop
sleeps `delay + random.uniform(0, 1)` and doubles `delay` (initially 2); on
the last attempt the failure is re-raised.  `res k` is the outcome of
attempt `k`, `jit k` the jitter drawn after attempt `k`; the result
carries the sleeps performed, in order.
-/

/-- Outcome of one `req.execute()` attempt. -/
inductive AttemptRes : Type where
  | ok : AttemptRes
  | http : Nat → Bool → AttemptRes
  | transport : AttemptRes
deriving DecidableEq

/-- The `retriable` predicate for an `HttpError`: status 429/500/502/503/504,
or a 403 whose body mentions `userRateLimitExceeded`/`rateLimitExceeded`. -/
def retriableHttp (s : Nat) (rateBody : Bool) : Bool :=
  (s == 429 || s == 500 || s == 502 || s == 503 || s == 504) || (s == 403 && rateBody)

/-- Whether the loop retries this outcome (a success is returned, never
retried; any transport error is retriable). -/
def retriableRes : AttemptRes → Bool
  | .ok => false
  | .http s rb => retriableHttp s rb
  | .transport => true

/-- The retry loop, with `remaining` retries allowed after this attempt.
On the last attempt (`remaining = 0`, Python `attempt == max_tries`) any
caught failure is re-raised; a non-retriable `HttpError` is re-raised
whatever the attempt; otherwise the loop sleeps `delay + jitter` and
retries with `2 * delay`. -/
def gapiLoop (res : Nat → AttemptRes) (jit : Nat → ℚ) :
    Nat → Nat → ℚ → List ℚ → (Except AttemptRes Unit) × List ℚ
  | attempt, 0, _, sleeps =>
    match res attempt with
    | .ok => (.ok (), sleeps)
    | .http s rb => (.error (.http s rb), sleeps)
    | .transport => (.error .transport, sleeps)
  | attempt, r + 1, delay, sleeps =>
    match res attempt with
    | .ok => (.ok (), sleeps)
    | .http s rb =>
      if retriableHttp s rb then
        gapiLoop res jit (attempt + 1) r (2 * delay) (sleeps ++ [delay + jit attempt])
      else (.error (.http s rb), sleeps)
    | .transport =>
      gapiLoop res jit (attempt + 1) r (2 * delay) (sleeps ++ [delay + jit attempt])

/-- `gapi_execute(req)`: attempt 1, six retries left, initial delay 2. -/
def gapiExecute (res : Nat → AttemptRes) (jit : Nat → ℚ) :
    (Except AttemptRes Unit) × List ℚ :=
  gapiLoop res jit 1 6 2 []

theorem sleeps_shift (delay : ℚ) (jit : Nat → ℚ) (attempt r : Nat) (sleeps : List ℚ) :
    (sleeps ++ [delay + jit attempt]) ++
      (List.range r).map (fun i => (2 * delay) * 2 ^ i + jit (attempt + 1 + i)) =
      sleeps ++ (List.range (r + 1)).map (fun i => delay * 2 ^ i + jit (attempt + i)) := by
  rw [List.append_assoc, List.singleton_append, List.range_succ_eq_map, List.map_cons,
    List.map_map]
  congr 1
  congr 1
  · norm_num
  · apply List.map_congr_left
    intro i _
    simp only [Function.comp_apply]
    have h1 : attempt + (i + 1) = attempt + 1 + i := by omega
    rw [Nat.succ_eq_add_one, h1, pow_succ]
    ring

theorem gapiLoop_retriable_all (res : Nat → AttemptRes) (jit : Nat → ℚ) :
    ∀ (r attempt : Nat) (delay : ℚ) (sleeps : List ℚ),
    (∀ j, attempt ≤ j → j ≤ attempt + r → retriableRes (res j) = true) →
    gapiLoop res jit attempt r delay sleeps =
      (.error (res (attempt + r)),
        sleeps ++ (List.range r).map (fun i => delay * 2 ^ i + jit (attempt + i))) := by
  intro r
  induction r with
  | zero =>
    intro attempt delay sleeps hall
    have h := hall attempt (le_refl _) (by omega)
    rcases hres : res attempt with _ | ⟨s, rb⟩ | _
    · rw [hres] at h
      simp [retriableRes] at h
    · simp only [gapiLoop, hres]
      simp [hres]
    · simp only [gapiLoop, hres]
      simp [hres]
  | succ r ih =>
    intro attempt delay sleeps hall
    have h := hall attempt (le_refl _) (by omega)
    have hrest : ∀ j, attempt + 1 ≤ j → j ≤ attempt + 1 + r → retriableRes (res j) = true :=
      fun j h1 h2 => hall j (by omega) (by omega)
    have htail := ih (attempt + 1) (2 * delay) (sleeps ++ [delay + jit attempt]) hrest
    have harith : attempt + 1 + r = attempt + (r + 1) := by omega
    rcases hres : res attempt with _ | ⟨s, rb⟩ | _
    · rw [hres] at h
      simp [retriableRes] at h
    · rw [hres] at h
      simp only [retriableRes] at h
      have hstep : gapiLoop res jit attempt (r + 1) delay sleeps =
          gapiLoop res jit (attempt + 1) r (2 * delay) (sleeps ++ [delay + jit attempt]) := by
        simp only [gapiLoop, hres]
        simp [h]
      rw [hstep, htail, harith, sleeps_shift]
    · have hstep : gapiLoop res jit attempt (r + 1) delay sleeps =
          gapiLoop res jit (attempt + 1) r (2 * delay) (sleeps ++ [delay + jit attempt]) := by
        simp only [gapiLoop, hres]
      rw [hstep, htail, harith, sleeps_shift]

theorem gapiLoop_ok_after (res : Nat → AttemptRes) (jit : Nat → ℚ) :
    ∀ (k r attempt : Nat) (delay : ℚ) (sleeps : List ℚ), k ≤ r →
    (∀ j, attempt ≤ j → j < attempt + k → retriableRes (res j) = true) →
    res (attempt + k) = .ok →
    gapiLoop res jit attempt r delay sleeps =
      (.ok (), sleeps ++ (List.range k).map (fun i => delay * 2 ^ i + jit (attempt + i))) := by
  intro k
  induction k with
  | zero =>
    intro r attempt delay sleeps _ _ hok
    rw [Nat.add_zero] at hok
    cases r with
    | zero =>
      simp only [gapiLoop, hok]
      simp
    | succ r =>
      simp only [gapiLoop, hok]
      simp
  | succ k ih =>
    intro r attempt delay sleeps hkr hall hok
    obtain ⟨r2, rfl⟩ : ∃ r2, r = r2 + 1 := ⟨r - 1, by omega⟩
    have h := hall attempt (le_refl _) (by omega)
    have hstep : gapiLoop res jit attempt (r2 + 1) delay sleeps =
        gapiLoop res jit (attempt + 1) r2 (2 * delay) (sleeps ++ [delay + jit attempt]) := by
      rcases hres : res attempt with _ | ⟨s, rb⟩ | _
      · rw [hres] at h
        simp [retriableRes] at h
      · rw [hres] at h
        simp only [retriableRes] at h
        simp only [gapiLoop, hres]
        simp [h]
      · simp only [gapiLoop, hres]
    have htail := ih r2 (attempt + 1) (2 * delay) (sleeps ++ [delay + jit attempt])
      (by omega) (fun j h1 h2 => hall j (by omega) (by omega))
      (by rw [show attempt + 1 + k = attempt + (k + 1) from by omega]; exact hok)
    rw [hstep, htail, sleeps_shift]

theorem gapiLoop_sleeps_bound (res : Nat → AttemptRes) (jit : Nat → ℚ)
    (hj : ∀ j : Nat, 0 ≤ jit j ∧ jit j < 1) :
    ∀ (r attempt : Nat) (delay : ℚ) (sleeps : List ℚ),
    (∀ d ∈ sleeps, d < 65) → delay * 2 ^ r ≤ 128 → 0 < delay →
    ∀ d ∈ (gapiLoop res jit attempt r delay sleeps).2, d < 65 := by
  intro r
  induction r with
  | zero =>
    intro attempt delay sleeps hs _ _ d hd
    rcases hres : res attempt with _ | ⟨s, rb⟩ | _ <;>
      simp [gapiLoop, hres] at hd <;> exact hs d hd
  | succ r ih =>
    intro attempt delay sleeps hs hdel hpos d hd
    have hd64 : delay ≤ 64 := by
      have h2 : (2 : ℚ) ≤ 2 ^ (r + 1) := by
        calc (2 : ℚ) = 2 ^ 1 := by norm_num
        _ ≤ 2 ^ (r + 1) := by
          apply pow_le_pow_right₀ (by norm_num)
          omega
      nlinarith
    have hsleeps2 : ∀ x ∈ sleeps ++ [delay + jit attempt], x < 65 := by
      intro x hx
      rcases List.mem_append.mp hx with hx | hx
      · exact hs x hx
      · simp only [List.mem_singleton] at hx
        subst hx
        have := (hj attempt).2
        linarith
    have hdel2 : (2 * delay) * 2 ^ r ≤ 128 := by
      have heq : delay * 2 ^ (r + 1) = (2 * delay) * 2 ^ r := by
        rw [pow_succ]
        ring
      linarith [heq ▸ hdel]
    rcases hres : res attempt with _ | ⟨s, rb⟩ | _
    · simp [gapiLoop, hres] at hd
      exact hs d hd
    · rcases hrb : retriableHttp s rb with _ | _
      · simp [gapiLoop, hres, hrb] at hd
        exact hs d hd
      · simp only [gapiLoop, hres, hrb, if_true] at hd
        exact ih (attempt + 1) (2 * delay) (sleeps ++ [delay + jit attempt]) hsleeps2 hdel2
          (by linarith) d hd
    · simp only [gapiLoop, hres] at hd
      exact ih (attempt + 1) (2 * delay) (sleeps ++ [delay + jit attempt]) hsleeps2 hdel2
        (by linarith) d hd

/-- C6: the failure classification and retry policy of `gapi_execute`.
Statuses 429/500/502/503/504 and rate-limited 403s are Retryable, as is any
transport or credential-refresh error; any other `HttpError` (not-found,
forbidden, quota) is Terminal and re-raised from the first attempt with no
sleep; a run of retryable failures is retried with sleeps
`2·2^i + jitter`, doubling each time, for at most 7 attempts, after which
the last failure is re-raised; success on attempt `k+1` stops the loop with
exactly `k` sleeps; and with jitter in `[0, 1)` every sleep stays under the
ceiling 65 (the budget caps the base delay at 64). -/
theorem C6_retry_classification_backoff_budget (res : Nat → AttemptRes) (jit : Nat → ℚ) :
    (retriableHttp 429 false = true ∧ retriableHttp 500 false = true ∧
     retriableHttp 502 false = true ∧ retriableHttp 503 false = true ∧
     retriableHttp 504 false = true ∧ retriableHttp 403 true = true ∧
     retriableHttp 403 false = false ∧ retriableHttp 404 false = false ∧
     retriableRes .transport = true ∧ retriableRes .ok = false) ∧
    (∀ s rb, res 1 = .http s rb → retriableHttp s rb = false →
      gapiExecute res jit = (.error (.http s rb), [])) ∧
    ((∀ j, 1 ≤ j → j ≤ 7 → retriableRes (res j) = true) →
      gapiExecute res jit =
        (.error (res 7), (List.range 6).map (fun i => 2 * 2 ^ i + jit (1 + i)))) ∧
    (∀ k, k ≤ 6 → (∀ j, 1 ≤ j → j < 1 + k → retriableRes (res j) = true) →
      res (1 + k) = .ok →
      gapiExecute res jit = (.ok (), (List.range k).map (fun i => 2 * 2 ^ i + jit (1 + i)))) ∧
    ((∀ j : Nat, 0 ≤ jit j ∧ jit j < 1) → ∀ d ∈ (gapiExecute res jit).2, d < 65) := by
  refine ⟨⟨rfl, rfl, rfl, rfl, rfl, rfl, rfl, rfl, rfl, rfl⟩, ?_, ?_, ?_, ?_⟩
  · intro s rb h1 h2
    rw [gapiExecute]
    simp only [gapiLoop, h1]
    simp [h2]
  · intro hall
    have h := gapiLoop_retriable_all res jit 6 1 2 [] (fun j h1 h2 => hall j h1 (by omega))
    rw [gapiExecute, h]
    rfl
  · intro k hk hall hok
    have h := gapiLoop_ok_after res jit k 6 1 2 [] hk hall hok
    rw [gapiExecute, h]
    rfl
  · intro hj
    exact gapiLoop_sleeps_bound res jit hj 6 1 2 [] (by simp) (by norm_num) (by norm_num)

/-- Witness for C6: a terminal 404 raised with no retry; seven transport
failures exhausting the budget with the six doubling sleeps; an immediate
success with no sleeps; and the sleep ceiling on the exhausted run. -/
theorem C6_retry_classification_backoff_budget_witness :
    gapiExecute (fun _ => .http 404 false) (fun _ => 0) = (.error (.http 404 false), []) ∧
    gapiExecute (fun _ => .transport) (fun _ => 0) =
      (.error .transport, (List.range 6).map (fun i => 2 * 2 ^ i + (0 : ℚ))) ∧
    gapiExecute (fun _ => .ok) (fun _ => 0) = (.ok (), []) ∧
    (∀ d ∈ (gapiExecute (fun _ => .transport) (fun _ => (0 : ℚ))).2, d < 65) := by
  have h1 := C6_retry_classification_backoff_budget (fun _ => .http 404 false) (fun _ => 0)
  have h2 := C6_retry_classification_backoff_budget (fun _ => .transport) (fun _ => 0)
  have h3 := C6_retry_classification_backoff_budget (fun _ => .ok) (fun _ => 0)
  refine ⟨h1.2.1 404 false rfl rfl, h2.2.2.1 (fun j _ _ => rfl), ?_, ?_⟩
  · exact h3.2.2.2.1 0 (by omega) (fun j hj1 hj2 => absurd hj2 (by omega)) rfl
  · exact h2.2.2.2.2 (fun j => ⟨le_refl 0, zero_lt_one⟩)

/-!
Claims about `canonical` itself: marker-stripping invariance (C2) and
totality (C9).
-/

theorem tryAll_append (l1 l2 : List Str) :
    tryAll (l1 ++ l2) =
      match tryAll l1 with
      | some g => some g
      | none => tryAll l2 := by
  induction l1 with
  | nil => simp [tryAll]
  | cons r rs ih =>
    simp only [List.cons_append, tryAll]
    rcases h : findStem [] r with _ | g
    · simpa using ih
    · rfl

theorem markerRestsF_succ (fuel : Nat) (s : Str) :
    markerRestsF (fuel + 1) s =
      match dropMarker s with
      | some r => markerRestsF fuel r ++ [r]
      | none => [] := rfl

theorem markerRests_copyof (n : Str) :
    markerRests (("Copy of ".data) ++ n) = markerRests n ++ [n] := by
  have hdrop : dropMarker (("Copy of ".data) ++ n) = some n := rfl
  have hlen : (("Copy of ".data) ++ n).length = n.length + 8 := by
    rw [List.length_append]
    have h8 : ("Copy of ".data).length = 8 := rfl
    omega
  rw [markerRests, hlen, show n.length + 8 = (n.length + 7) + 1 from rfl,
    markerRestsF_succ, hdrop]
  show markerRestsF (n.length + 7) n ++ [n] = markerRests n ++ [n]
  rw [markerRestsF_fuel (n.length + 7) n.length n (by omega) (le_refl _)]
  rfl

theorem markerRests_copiade (n : Str) :
    markerRests (("Copia de ".data) ++ n) = markerRests n ++ [n] := by
  have hdrop : dropMarker (("Copia de ".data) ++ n) = some n := rfl
  have hlen : (("Copia de ".data) ++ n).length = n.length + 9 := by
    rw [List.length_append]
    have h9 : ("Copia de ".data).length = 9 := rfl
    omega
  rw [markerRests, hlen, show n.length + 9 = (n.length + 8) + 1 from rfl,
    markerRestsF_succ, hdrop]
  show markerRestsF (n.length + 8) n ++ [n] = markerRests n ++ [n]
  rw [markerRestsF_fuel (n.length + 8) n.length n (by omega) (le_refl _)]
  rfl

theorem canonGroups_marker (n : Str) (g : Str × Option Str) (h : canonGroups n = some g) :
    canonGroups (("Copy of ".data) ++ n) = some g ∧
    canonGroups (("Copia de ".data) ++ n) = some g := by
  rw [canonGroups] at h
  constructor
  · rw [canonGroups, markerRests_copyof, tryAll_append, h]
  · rw [canonGroups, markerRests_copiade, tryAll_append, h]

/-- C2: canonicalization is invariant under prepending the duplicate
markers `Copy of ` / `Copia de ` — for any name the regex matches, the
prefixed name yields the same key — and in particular
`canonical("Copy of Budget (2).xlsx") = canonical("Budget.xlsx") =
"budget.xlsx"` (one trailing `" (digits)"` group stripped from the stem,
the stem lower-cased, the extension preserved). -/
theorem C2_canonical_strips_markers (n k : Str) (h : canonical n = some k) :
    canonical (("Copy of ".data) ++ n) = some k ∧
    canonical (("Copia de ".data) ++ n) = some k ∧
    canonical ("Copy of Budget (2).xlsx".data) = some ("budget.xlsx".data) ∧
    canonical ("Budget.xlsx".data) = some ("budget.xlsx".data) := by
  rw [canonical] at h
  rcases hg : canonGroups n with _ | g
  · rw [hg] at h
    cases h
  · rw [hg] at h
    obtain ⟨stem, e⟩ := g
    have hm := canonGroups_marker n (stem, e) hg
    refine ⟨?_, ?_, by decide, by decide⟩
    · rw [canonical, hm.1]
      exact h
    · rw [canonical, hm.2]
      exact h

/-- Witness for C2 at `n = "Budget.xlsx"`. -/
theorem C2_canonical_strips_markers_witness :
    canonical (("Copy of ".data) ++ ("Budget.xlsx".data)) = some ("budget.xlsx".data) ∧
    canonical (("Copia de ".data) ++ ("Budget.xlsx".data)) = some ("budget.xlsx".data) ∧
    canonical ("Copy of Budget (2).xlsx".data) = some ("budget.xlsx".data) ∧
    canonical ("Budget.xlsx".data) = some ("budget.xlsx".data) :=
  C2_canonical_strips_markers ("Budget.xlsx".data) ("budget.xlsx".data) (by decide)

/-- C9 counterexample: `canonical` is not total and not always non-empty —
on the empty string the regex does not match and the call raises
(`AttributeError` on `None.groups()`, modelled `none`); the same happens on
any name with an interior newline, such as `"a\nb"`; and on the
all-whitespace name `" "` it returns without raising but yields the
*empty* key, not a non-empty one. -/
theorem C9_counterexample :
    canonical ([] : Str) = none ∧
    canonical ("a\nb".data) = none ∧
    canonical (" ".data) = some [] := by
  refine ⟨by decide, by decide, by decide⟩

theorem tailMatch_nil : tailMatch [] = some none := rfl

theorem findStem_some : ∀ (s : Str) (acc : Str), s ≠ [] → (∀ c ∈ s, c ≠ '\n') →
    (findStem acc s).isSome = true := by
  intro s
  induction s with
  | nil => intro acc h _; cases h rfl
  | cons c tl ih =>
    intro acc _ hnl
    have hc : c ≠ '\n' := hnl c (List.mem_cons_self _ _)
    rw [findStem, if_neg hc]
    rcases ht : tailMatch tl with _ | e
    · have htl : tl ≠ [] := by
        intro hnil
        rw [hnil, tailMatch_nil] at ht
        cases ht
      exact ih (acc ++ [c]) htl (fun x hx => hnl x (List.mem_cons_of_mem _ hx))
    · rfl

theorem tryAll_last_some : ∀ (l : List Str) (s : Str), (findStem [] s).isSome = true →
    (tryAll (l ++ [s])).isSome = true := by
  intro l
  induction l with
  | nil =>
    intro s h
    rcases hf : findStem [] s with _ | g
    · rw [hf] at h
      cases h
    · simp [tryAll, hf]
  | cons r rs ih =>
    intro s h
    simp only [List.cons_append, tryAll]
    rcases hf : findStem [] r with _ | g
    · exact ih s h
    · rfl

/-- C9 amended: `canonical` is pure and deterministic, and on every
*non-empty* name free of interior newlines it returns a key without
raising (the lazy stem can always absorb the whole name); in particular a
name consisting entirely of markers falls back, via the regex engine giving
up on the marker group, to the stripped lower-cased name itself
(`canonical("Copy of ") = "copy of"`).  On the empty string the regex fails
to match and the call raises, and the key can be empty when the stem is all
whitespace. -/
theorem C9_canonical_total_on_nonempty (s : Str) (h1 : s ≠ [])
    (h2 : ∀ c ∈ s, c ≠ '\n') :
    (canonical s).isSome = true ∧
    canonical ("Copy of ".data) = some ("copy of".data) ∧
    canonical (" ".data) = some [] := by
  refine ⟨?_, by decide, by decide⟩
  have hg : (canonGroups s).isSome = true := by
    rw [canonGroups]
    exact tryAll_last_some (markerRests s) s (findStem_some s [] h1 h2)
  rcases hgg : canonGroups s with _ | g
  · rw [hgg] at hg
    cases hg
  · obtain ⟨stem, e⟩ := g
    rw [canonical, hgg]
    rfl

/-- Witness for C9's amended theorem at `s = "x"`. -/
theorem C9_canonical_total_on_nonempty_witness :
    (canonical ("x".data)).isSome = true ∧
    canonical ("Copy of ".data) = some ("copy of".data) ∧
    canonical (" ".data) = some [] :=
  C9_canonical_total_on_nonempty ("x".data) (by decide) (by decide)

end DailyBackup
